import Mathlib

/-!
Verification of the numeric core of the graph-analysis repository.

The TypeScript sources are shallowly embedded here:
* `src/lib/neural-network.ts`  → namespace `NN` (tensor helpers, `Layer`, `Network`)
* `src/unnamed/part_006` (losses) → namespace `Losses`
* `src/lib/activations.ts`     → namespace `Act`
* `src/lib/optimizers.ts`      → namespace `Opt`
* `src/lib/debug-engine.ts`    → namespace `DE`
* `src/lib/graph-analysis.ts`  → namespace `GA`
* `src/lib/linear-regression.ts` → namespace `LR`

JavaScript `number` is modelled by exact arithmetic: `ℚ` where the code only
performs field operations, `ℝ` where it calls transcendental functions
(`Math.exp`, `Math.sqrt`), and the IEEE-like type `JNum` (a rational together
with `±Infinity` and `NaN`) where the behaviour under non-finite values is the
point of the claim (`Layer.updateWeights`).  Floating-point rounding and
overflow of finite intermediates are not modelled.
-/

/-- A dense 2-D matrix, mirroring the `Tensor` interface of
`src/unnamed/part_007`: a rectangular `data` array plus `rows`/`cols`. -/
structure Tensor (α : Type) where
  data : List (List α)
  rows : ℕ
  cols : ℕ
  deriving Repr, DecidableEq

/-- Entry access `t.data[i][j]`; out-of-range reads default to `0`
(the claims below only ever read in range, guarded by `WellFormed`). -/
def Tensor.ent {α : Type} [Zero α] (t : Tensor α) (i j : ℕ) : α :=
  (t.data.getD i []).getD j 0

/-- The tensor invariant from the spec's data model: every row has exactly
`cols` entries and `rows` matches the data extent. -/
def Tensor.WellFormed {α : Type} (t : Tensor α) : Prop :=
  t.data.length = t.rows ∧ ∀ r ∈ t.data, r.length = t.cols

instance {α : Type} (t : Tensor α) : Decidable t.WellFormed := by
  unfold Tensor.WellFormed; infer_instance

namespace NN

variable {α : Type}

/-- `matmul` from `src/lib/neural-network.ts`: loops `i < a.rows`,
`j < b.cols`, accumulating `sum += a.data[i][k] * b.data[k][j]` over
`k < a.cols`. -/
def matmul [CommRing α] (a b : Tensor α) : Tensor α :=
  { data := (List.range a.rows).map fun i =>
      (List.range b.cols).map fun j =>
        ∑ k ∈ Finset.range a.cols, a.ent i k * b.ent k j
    rows := a.rows
    cols := b.cols }

/-- `transpose` from `src/lib/neural-network.ts`: `data[j][i] = t.data[i][j]`
for `j < t.cols`, `i < t.rows`. -/
def transpose [Zero α] (t : Tensor α) : Tensor α :=
  { data := (List.range t.cols).map fun j =>
      (List.range t.rows).map fun i => t.ent i j
    rows := t.cols
    cols := t.rows }

/-- `subtract` from `src/lib/neural-network.ts` (elementwise `a - b` over
`a`'s extent). -/
def subtract [Sub α] (a b : Tensor α) : Tensor α :=
  { data := List.zipWith (List.zipWith (· - ·)) a.data b.data
    rows := a.rows
    cols := a.cols }

/-- `multiplyScalar` from `src/lib/neural-network.ts`. -/
def multiplyScalar [Mul α] (t : Tensor α) (scalar : α) : Tensor α :=
  { data := t.data.map fun row => row.map fun val => val * scalar
    rows := t.rows
    cols := t.cols }

/-- `broadcastAdd` from `src/lib/neural-network.ts`: adds `vec[j]` to every
entry of column `j`. -/
def broadcastAdd [Add α] [Zero α] (t : Tensor α) (vec : List α) : Tensor α :=
  { data := t.data.map fun row => row.enum.map fun jv => jv.2 + vec.getD jv.1 0
    rows := t.rows
    cols := t.cols }

/-- `colSum` from `src/lib/neural-network.ts`: the vector of column sums. -/
def colSum [AddCommMonoid α] [Zero α] (t : Tensor α) : List α :=
  (List.range t.cols).map fun j => ∑ i ∈ Finset.range t.rows, t.ent i j

/-- The `cols × cols` identity matrix, as used by the spec's algebraic test
`matmul(A, identity) == A` (§8). -/
def identityTensor [Zero α] [One α] (n : ℕ) : Tensor α :=
  { data := (List.range n).map fun i =>
      (List.range n).map fun j => if i = j then 1 else 0
    rows := n
    cols := n }

end NN

namespace LR

/-- A 2-D data point, from `src/lib/linear-regression.ts` (`DataPoint`; the
optional `isTrain` flag plays no role in the embedded functions). -/
structure DataPoint where
  x : ℚ
  y : ℚ
  deriving Repr, DecidableEq

/-- Result record of `normalEquation`: slope `m` and intercept `b`. -/
structure MB where
  m : ℚ
  b : ℚ
  deriving Repr, DecidableEq

/-- `sumX = points.reduce((s, p) => s + p.x, 0)`. -/
def sumX (points : List DataPoint) : ℚ := points.foldl (fun s p => s + p.x) 0

/-- `sumY = points.reduce((s, p) => s + p.y, 0)`. -/
def sumY (points : List DataPoint) : ℚ := points.foldl (fun s p => s + p.y) 0

/-- `sumXY = points.reduce((s, p) => s + p.x * p.y, 0)`. -/
def sumXY (points : List DataPoint) : ℚ := points.foldl (fun s p => s + p.x * p.y) 0

/-- `sumXX = points.reduce((s, p) => s + p.x * p.x, 0)`. -/
def sumXX (points : List DataPoint) : ℚ := points.foldl (fun s p => s + p.x * p.x) 0

/-- `normalEquation` from `src/lib/linear-regression.ts`: closed-form least
squares, with a short-circuit for fewer than two points and a degenerate
denominator guard at `1e-10`. -/
def normalEquation (points : List DataPoint) : MB :=
  if points.length < 2 then ⟨0, 0⟩
  else
    let n : ℚ := points.length
    let denominator := n * sumXX points - sumX points * sumX points
    if |denominator| < 1 / 10 ^ 10 then
      ⟨0, sumY points / n⟩
    else
      let m := (n * sumXY points - sumX points * sumY points) / denominator
      ⟨m, (sumY points - m * sumX points) / n⟩

theorem foldl_add_eq_sum (f : DataPoint → ℚ) (points : List DataPoint) (init : ℚ) :
    points.foldl (fun s p => s + f p) init = init + (points.map f).sum := by
  induction points generalizing init with
  | nil => simp
  | cons p ps ih => simp [ih, add_assoc]

end LR

/-- C10: `normalEquation` on fewer than 2 points returns `{m: 0, b: 0}`; when
`n*sum(x^2) - (sum x)^2` is within `1e-10` of zero it returns `{m: 0, b: mean
of the y values}` without dividing by the degenerate denominator. -/
theorem C10_normalEquation_degenerate (points : List LR.DataPoint) :
    (points.length < 2 → LR.normalEquation points = ⟨0, 0⟩) ∧
    (2 ≤ points.length →
      |(points.length : ℚ) * LR.sumXX points - LR.sumX points * LR.sumX points|
        < 1 / 10 ^ 10 →
      LR.normalEquation points =
        ⟨0, (points.map (·.y)).sum / (points.length : ℚ)⟩) := by
  constructor
  · intro h
    simp [LR.normalEquation, h]
  · intro h hdeg
    have h2 : ¬ points.length < 2 := by omega
    have hy : LR.sumY points = (points.map (·.y)).sum := by
      simpa using LR.foldl_add_eq_sum (·.y) points 0
    have hdeg' : |(points.length : ℚ) * LR.sumXX points -
        LR.sumX points * LR.sumX points| < ((10 : ℚ) ^ 10)⁻¹ := by
      rw [← one_div]; exact hdeg
    simp [LR.normalEquation, h2, hdeg', hy]

/-- Witness for C10 at the concrete inputs `[]` and three points sharing
`x = 1`. -/
theorem C10_normalEquation_degenerate_witness :
    ([] : List LR.DataPoint).length < 2 ∧
    LR.normalEquation [] = ⟨0, 0⟩ ∧
    2 ≤ ([⟨1, 2⟩, ⟨1, 4⟩, ⟨1, 6⟩] : List LR.DataPoint).length ∧
    LR.normalEquation [⟨1, 2⟩, ⟨1, 4⟩, ⟨1, 6⟩] = ⟨0, 4⟩ := by
  refine ⟨by decide, (C10_normalEquation_degenerate []).1 (by decide), by decide, ?_⟩
  have := (C10_normalEquation_degenerate [⟨1, 2⟩, ⟨1, 4⟩, ⟨1, 6⟩]).2
    (by decide) (by norm_num [LR.sumXX, LR.sumX])
  rw [this]
  norm_num

namespace NN

theorem getD_range_map {β : Type} (f : ℕ → β) {n j : ℕ} (d : β) (h : j < n) :
    (((List.range n).map f).getD j d) = f j := by
  rw [List.getD_eq_getElem?_getD, List.getElem?_map, List.getElem?_range h]
  rfl

theorem ent_eq {α : Type} [Zero α] (A : Tensor α) {i j : ℕ}
    (hi : i < A.data.length) (hj : j < (A.data[i]).length) :
    A.ent i j = A.data[i][j] := by
  unfold Tensor.ent
  rw [List.getD_eq_getElem _ _ hi, List.getD_eq_getElem _ _ hj]

/-- A well-formed tensor's data is determined by its `ent` table. -/
theorem wf_canonical {α : Type} [Zero α] (A : Tensor α) (h : A.WellFormed) :
    A.data = (List.range A.rows).map fun i =>
      (List.range A.cols).map fun j => A.ent i j := by
  obtain ⟨hrows, hcols⟩ := h
  apply List.ext_getElem
  · simpa using hrows
  · intro i h1 h2
    rw [List.getElem_map, List.getElem_range]
    apply List.ext_getElem
    · have hmem := hcols A.data[i] (A.data.getElem_mem h1)
      simpa using hmem
    · intro j hj1 hj2
      rw [List.getElem_map, List.getElem_range]
      exact (ent_eq A h1 hj1).symm

theorem ent_transpose {α : Type} [Zero α] (A : Tensor α) {i j : ℕ}
    (hi : i < A.rows) (hj : j < A.cols) :
    (transpose A).ent j i = A.ent i j := by
  show (((List.range A.cols).map fun j =>
      (List.range A.rows).map fun i => A.ent i j).getD j []).getD i 0 = A.ent i j
  rw [getD_range_map _ _ hj, getD_range_map _ _ hi]

theorem ent_identity {α : Type} [Zero α] [One α] {n k j : ℕ}
    (hk : k < n) (hj : j < n) :
    (identityTensor (α := α) n).ent k j = if k = j then 1 else 0 := by
  show (((List.range n).map fun i =>
      (List.range n).map fun j => if i = j then (1 : α) else 0).getD k []).getD j 0 =
    if k = j then 1 else 0
  rw [getD_range_map _ _ hk, getD_range_map _ _ hj]

end NN

/-- Structure extensionality for tensors. -/
theorem Tensor.ext' {α : Type} {t s : Tensor α} (hd : t.data = s.data)
    (hr : t.rows = s.rows) (hc : t.cols = s.cols) : t = s := by
  cases t; cases s
  cases hd; cases hr; cases hc
  rfl

/-- C8: for every well-formed tensor `A`, `transpose (transpose A) = A` and
`matmul A I = A` with `I` the `cols × cols` identity tensor. -/
theorem C8_transpose_matmul_identity (A : Tensor ℚ) (h : A.WellFormed) :
    NN.transpose (NN.transpose A) = A ∧
    NN.matmul A (NN.identityTensor A.cols) = A := by
  constructor
  · refine Tensor.ext' ?_ rfl rfl
    calc (NN.transpose (NN.transpose A)).data
        = (List.range A.rows).map fun i =>
            (List.range A.cols).map fun j => (NN.transpose A).ent j i := rfl
      _ = (List.range A.rows).map fun i =>
            (List.range A.cols).map fun j => A.ent i j := by
          apply List.map_congr_left
          intro i hi
          apply List.map_congr_left
          intro j hj
          exact NN.ent_transpose A (List.mem_range.mp hi) (List.mem_range.mp hj)
      _ = A.data := (NN.wf_canonical A h).symm
  · refine Tensor.ext' ?_ rfl rfl
    calc (NN.matmul A (NN.identityTensor A.cols)).data
        = (List.range A.rows).map fun i =>
            (List.range A.cols).map fun j =>
              ∑ k ∈ Finset.range A.cols,
                A.ent i k * (NN.identityTensor A.cols).ent k j := rfl
      _ = (List.range A.rows).map fun i =>
            (List.range A.cols).map fun j => A.ent i j := by
          apply List.map_congr_left
          intro i hi
          apply List.map_congr_left
          intro j hj
          have hj' : j < A.cols := List.mem_range.mp hj
          rw [Finset.sum_congr rfl fun k hk => by
            rw [NN.ent_identity (Finset.mem_range.mp hk) hj']]
          rw [Finset.sum_eq_single j]
          · simp
          · intro k _ hkj
            simp [hkj]
          · intro hj2
            exact absurd (Finset.mem_range.mpr hj') hj2
      _ = A.data := (NN.wf_canonical A h).symm

/-- Witness for C8 at a concrete 2×3 tensor. -/
theorem C8_transpose_matmul_identity_witness :
    (Tensor.mk [[1, 2, 3], [4, 5, 6]] 2 3 : Tensor ℚ).WellFormed ∧
    NN.transpose (NN.transpose (Tensor.mk [[1, 2, 3], [4, 5, 6]] 2 3 : Tensor ℚ)) =
      Tensor.mk [[1, 2, 3], [4, 5, 6]] 2 3 ∧
    NN.matmul (Tensor.mk [[1, 2, 3], [4, 5, 6]] 2 3 : Tensor ℚ)
        (NN.identityTensor 3) =
      Tensor.mk [[1, 2, 3], [4, 5, 6]] 2 3 := by
  refine ⟨by decide, ?_, ?_⟩
  · exact (C8_transpose_matmul_identity _ (by decide)).1
  · exact (C8_transpose_matmul_identity _ (by decide)).2

namespace Losses

/-- `MSE.compute` from the losses module (`src/unnamed/part_006`): accumulates
`diff * diff` and a `count` over the entry grid, returning `sum / count` when
`count > 0` and `0` otherwise.  In this exact-rational model every value is
finite, so the source's `isFinite` guard is identically true and `count`
equals `rows * cols`. -/
def MSEcompute (predictions targets : Tensor ℚ) : ℚ :=
  let sum := ∑ i ∈ Finset.range predictions.rows, ∑ j ∈ Finset.range predictions.cols,
    (predictions.ent i j - targets.ent i j) * (predictions.ent i j - targets.ent i j)
  let count : ℚ := predictions.rows * predictions.cols
  if 0 < count then sum / count else 0

/-- `MSE.gradient` from the losses module (`src/unnamed/part_006`):
elementwise `2 * (pred - target) / count` with `count = rows * cols` (the
source's non-finite fallback to `0` is identically vacuous over `ℚ`). -/
def MSEgradient (predictions targets : Tensor ℚ) : Tensor ℚ :=
  let count : ℚ := predictions.rows * predictions.cols
  { data := predictions.data.enum.map fun ir =>
      ir.2.enum.map fun jv => 2 * (jv.2 - targets.ent ir.1 jv.1) / count
    rows := predictions.rows
    cols := predictions.cols }

theorem getD_enum_map {β γ : Type} (l : List β) (f : ℕ × β → γ) (d : γ)
    {i : ℕ} (h : i < l.length) :
    (l.enum.map f).getD i d = f (i, l[i]) := by
  rw [List.getD_eq_getElem?_getD, List.getElem?_map, List.getElem?_enum,
    List.getElem?_eq_getElem h]
  rfl

theorem ent_MSEgradient (predictions targets : Tensor ℚ)
    (hp : predictions.WellFormed) {i j : ℕ}
    (hi : i < predictions.rows) (hj : j < predictions.cols) :
    (MSEgradient predictions targets).ent i j =
      2 * (predictions.ent i j - targets.ent i j) /
        ((predictions.rows : ℚ) * predictions.cols) := by
  obtain ⟨hrows, hcols⟩ := hp
  have hi' : i < predictions.data.length := by omega
  have hrow : predictions.data[i].length = predictions.cols :=
    hcols _ (predictions.data.getElem_mem hi')
  have hj' : j < predictions.data[i].length := by omega
  show ((predictions.data.enum.map fun ir =>
      ir.2.enum.map fun jv => 2 * (jv.2 - targets.ent ir.1 jv.1) /
        ((predictions.rows : ℚ) * predictions.cols)).getD i []).getD j 0 = _
  rw [getD_enum_map _ _ _ hi']
  simp only
  rw [getD_enum_map _ _ _ hj']
  simp only
  rw [NN.ent_eq predictions hi' hj']

end Losses

/-- Bumping one tensor entry by `ε`: the input perturbation `pred + ε·e_ij`
used by the spec's finite-difference check (§8). -/
def Tensor.bump (t : Tensor ℚ) (i j : ℕ) (ε : ℚ) : Tensor ℚ :=
  { t with data := t.data.set i ((t.data.getD i []).set j (t.ent i j + ε)) }

theorem Tensor.ent_bump (t : Tensor ℚ) (ht : t.WellFormed) {i j : ℕ}
    (hi : i < t.rows) (hj : j < t.cols) (ε : ℚ) :
    ∀ a b, a < t.rows → b < t.cols →
      (t.bump i j ε).ent a b =
        if a = i ∧ b = j then t.ent i j + ε else t.ent a b := by
  obtain ⟨hrows, hcols⟩ := ht
  intro a b ha hb
  have hi' : i < t.data.length := by omega
  have ha' : a < t.data.length := by omega
  have hrowi : t.data[i].length = t.cols := hcols _ (t.data.getElem_mem hi')
  have hrowa : t.data[a].length = t.cols := hcols _ (t.data.getElem_mem ha')
  have hgetDi : t.data.getD i [] = t.data[i] := List.getD_eq_getElem _ _ hi'
  have ha'' : a < (t.data.set i ((t.data.getD i []).set j (t.ent i j + ε))).length := by
    rw [List.length_set]; omega
  show ((t.data.set i ((t.data.getD i []).set j (t.ent i j + ε))).getD a []).getD b 0 = _
  rw [List.getD_eq_getElem _ _ ha'', List.getElem_set]
  by_cases hai : i = a
  · subst hai
    rw [if_pos rfl]
    by_cases hbj : b = j
    · subst hbj
      have hb' : b < ((t.data.getD i []).set b (t.ent i b + ε)).length := by
        rw [List.length_set, hgetDi]; omega
      rw [List.getD_eq_getElem _ _ hb', List.getElem_set_self, if_pos ⟨rfl, rfl⟩]
    · have hb' : b < ((t.data.getD i []).set j (t.ent i j + ε)).length := by
        rw [List.length_set, hgetDi]; omega
      have hb'' : b < t.data[i].length := by omega
      rw [List.getD_eq_getElem _ _ hb',
        List.getElem_set_ne (fun hc => hbj hc.symm),
        if_neg (fun hc => hbj hc.2), NN.ent_eq t hi' hb'']
      simp only [hgetDi]
  · rw [if_neg hai, if_neg (fun hc => hai hc.1.symm)]
    have hb'' : b < t.data[a].length := by omega
    rw [List.getD_eq_getElem _ _ hb'', NN.ent_eq t ha' hb'']

theorem sum_grid_sub_single {R C i j : ℕ} (hi : i < R) (hj : j < C)
    (f1 f2 : ℕ → ℕ → ℚ)
    (hagree : ∀ a b, a < R → b < C → ¬(a = i ∧ b = j) → f1 a b = f2 a b) :
    (∑ a ∈ Finset.range R, ∑ b ∈ Finset.range C, f1 a b) -
      (∑ a ∈ Finset.range R, ∑ b ∈ Finset.range C, f2 a b) =
      f1 i j - f2 i j := by
  rw [← Finset.sum_sub_distrib]
  rw [Finset.sum_eq_single i]
  · rw [← Finset.sum_sub_distrib, Finset.sum_eq_single j]
    · intro b hb hbj
      rw [hagree i b hi (Finset.mem_range.mp hb) (fun hc => hbj hc.2), sub_self]
    · intro hj2
      exact absurd (Finset.mem_range.mpr hj) hj2
  · intro a ha hai
    rw [← Finset.sum_sub_distrib]
    apply Finset.sum_eq_zero
    intro b hb
    rw [hagree a b (Finset.mem_range.mp ha) (Finset.mem_range.mp hb)
      (fun hc => hai hc.1), sub_self]
  · intro hi2
    exact absurd (Finset.mem_range.mpr hi) hi2

theorem Losses.MSEcompute_eq (p t : Tensor ℚ) (h : 0 < (p.rows : ℚ) * p.cols) :
    Losses.MSEcompute p t =
      (∑ a ∈ Finset.range p.rows, ∑ b ∈ Finset.range p.cols,
        (p.ent a b - t.ent a b) * (p.ent a b - t.ent a b)) /
      ((p.rows : ℚ) * p.cols) := by
  unfold Losses.MSEcompute
  simp only
  rw [if_pos h]

/-- C5: for same-shaped finite tensors, `MSE.gradient` is the exact partial
derivative of `MSE.compute`: the entry is `2*(pred-target)/N` with
`N = rows*cols`, and the central finite difference of `compute` at any step
`ε ≠ 0` equals it exactly (`compute` is quadratic in each entry). -/
theorem C5_MSE_gradient_is_derivative (pred target : Tensor ℚ)
    (hp : pred.WellFormed) (i j : ℕ)
    (hi : i < pred.rows) (hj : j < pred.cols) (ε : ℚ) (hε : ε ≠ 0) :
    (Losses.MSEgradient pred target).ent i j =
      2 * (pred.ent i j - target.ent i j) / ((pred.rows : ℚ) * pred.cols) ∧
    (Losses.MSEcompute (pred.bump i j ε) target -
        Losses.MSEcompute (pred.bump i j (-ε)) target) / (2 * ε) =
      (Losses.MSEgradient pred target).ent i j := by
  have hR : 0 < pred.rows := lt_of_le_of_lt (Nat.zero_le i) hi
  have hC : 0 < pred.cols := lt_of_le_of_lt (Nat.zero_le j) hj
  have hN : (0 : ℚ) < (pred.rows : ℚ) * pred.cols :=
    mul_pos (by exact_mod_cast hR) (by exact_mod_cast hC)
  have hNne : ((pred.rows : ℚ) * pred.cols) ≠ 0 := ne_of_gt hN
  refine ⟨Losses.ent_MSEgradient pred target hp hi hj, ?_⟩
  rw [Losses.MSEcompute_eq (pred.bump i j ε) target hN,
    Losses.MSEcompute_eq (pred.bump i j (-ε)) target hN,
    show (pred.bump i j ε).rows = pred.rows from rfl,
    show (pred.bump i j ε).cols = pred.cols from rfl,
    show (pred.bump i j (-ε)).rows = pred.rows from rfl,
    show (pred.bump i j (-ε)).cols = pred.cols from rfl,
    div_sub_div_same]
  have hagree : ∀ a b, a < pred.rows → b < pred.cols → ¬(a = i ∧ b = j) →
      ((pred.bump i j ε).ent a b - target.ent a b) *
        ((pred.bump i j ε).ent a b - target.ent a b) =
      ((pred.bump i j (-ε)).ent a b - target.ent a b) *
        ((pred.bump i j (-ε)).ent a b - target.ent a b) := by
    intro a b ha hb hne
    rw [Tensor.ent_bump pred hp hi hj ε a b ha hb,
      Tensor.ent_bump pred hp hi hj (-ε) a b ha hb, if_neg hne, if_neg hne]
  rw [sum_grid_sub_single hi hj _ _ hagree]
  have h1 : (pred.bump i j ε).ent i j = pred.ent i j + ε := by
    rw [Tensor.ent_bump pred hp hi hj ε i j hi hj, if_pos ⟨rfl, rfl⟩]
  have h2 : (pred.bump i j (-ε)).ent i j = pred.ent i j + (-ε) := by
    rw [Tensor.ent_bump pred hp hi hj (-ε) i j hi hj, if_pos ⟨rfl, rfl⟩]
  rw [h1, h2, Losses.ent_MSEgradient pred target hp hi hj]
  field_simp
  ring

/-- Witness for C5 at a concrete 1×2 tensor pair with `ε = 1/2`. -/
theorem C5_MSE_gradient_is_derivative_witness :
    (Tensor.mk [[3, 5]] 1 2 : Tensor ℚ).WellFormed ∧
    1 < (Tensor.mk [[3, 5]] 1 2 : Tensor ℚ).cols ∧
    ((1 : ℚ)/2 ≠ 0) ∧
    (Losses.MSEcompute ((Tensor.mk [[3, 5]] 1 2 : Tensor ℚ).bump 0 1 (1/2))
          (Tensor.mk [[1, 2]] 1 2) -
        Losses.MSEcompute ((Tensor.mk [[3, 5]] 1 2 : Tensor ℚ).bump 0 1 (-(1/2)))
          (Tensor.mk [[1, 2]] 1 2)) / (2 * (1/2)) =
      (Losses.MSEgradient (Tensor.mk [[3, 5]] 1 2) (Tensor.mk [[1, 2]] 1 2)).ent 0 1 :=
  ⟨by decide, by decide, by norm_num,
    (C5_MSE_gradient_is_derivative (Tensor.mk [[3, 5]] 1 2) (Tensor.mk [[1, 2]] 1 2)
      (by decide) 0 1 (by decide) (by decide) (1/2) (by norm_num)).2⟩

namespace Act

/-- Row maximum used by `Softmax.forward` (`Math.max(...row)`); the value on
an empty row (`-Infinity` in JS) is irrelevant because an empty row produces
an empty output row, so it is modelled by `0` there. -/
noncomputable def rowMax (row : List ℝ) : ℝ :=
  match row with
  | [] => 0
  | h :: t => t.foldl max h

/-- `Softmax.forward` from `src/lib/activations.ts`: per row, subtract the row
maximum, exponentiate, and divide by the row's sum of exponentials. -/
noncomputable def softmaxForward (input : Tensor ℝ) : Tensor ℝ :=
  { data := input.data.map fun row =>
      let maxVal := rowMax row
      let expVals := row.map fun val => Real.exp (val - maxVal)
      let sum := expVals.sum
      expVals.map fun val => val / sum
    rows := input.rows
    cols := input.cols }

end Act

theorem sum_map_div (l : List ℝ) (c : ℝ) :
    (l.map fun v => v / c).sum = l.sum / c := by
  induction l with
  | nil => simp
  | cons a t ih => simp [ih, add_div]

theorem softmax_row_props (row : List ℝ) (h : row ≠ []) :
    (((row.map fun val => Real.exp (val - Act.rowMax row)).map fun val =>
        val / (row.map fun val => Real.exp (val - Act.rowMax row)).sum).sum = 1) ∧
    ∀ v ∈ ((row.map fun val => Real.exp (val - Act.rowMax row)).map fun val =>
        val / (row.map fun val => Real.exp (val - Act.rowMax row)).sum),
      0 ≤ v ∧ v ≤ 1 := by
  have hne : (row.map fun val => Real.exp (val - Act.rowMax row)) ≠ [] := by
    simpa using h
  have hpos : ∀ x ∈ (row.map fun val => Real.exp (val - Act.rowMax row)), 0 < x := by
    intro x hx
    obtain ⟨v, _, rfl⟩ := List.mem_map.mp hx
    exact Real.exp_pos _
  have hs : 0 < (row.map fun val => Real.exp (val - Act.rowMax row)).sum :=
    List.sum_pos _ hpos hne
  constructor
  · rw [sum_map_div, div_self (ne_of_gt hs)]
  · intro v hv
    obtain ⟨x, hx, rfl⟩ := List.mem_map.mp hv
    constructor
    · exact div_nonneg (le_of_lt (hpos x hx)) (le_of_lt hs)
    · rw [div_le_one hs]
      exact List.single_le_sum (fun y hy => le_of_lt (hpos y hy)) x hx

/-- C9 (amended): for every well-formed input with at least one column, every
entry of `Softmax.forward`'s output lies in `[0,1]` and every output row sums
to `1`. -/
theorem C9_softmax_rows_normalized (A : Tensor ℝ) (hA : A.WellFormed)
    (hc : 0 < A.cols) :
    ∀ r ∈ (Act.softmaxForward A).data, r.sum = 1 ∧ ∀ v ∈ r, 0 ≤ v ∧ v ≤ 1 := by
  intro r hr
  obtain ⟨row, hrow, rfl⟩ := List.mem_map.mp hr
  have hlen : row.length = A.cols := hA.2 row hrow
  have hne : row ≠ [] := by
    intro hcon
    rw [hcon] at hlen
    simp at hlen
    omega
  exact softmax_row_props row hne

/-- Witness for C9 at the concrete 1×1 input `[[0]]`. -/
theorem C9_softmax_rows_normalized_witness :
    (Tensor.mk [[0]] 1 1 : Tensor ℝ).WellFormed ∧
    0 < (Tensor.mk [[0]] 1 1 : Tensor ℝ).cols ∧
    ∀ r ∈ (Act.softmaxForward (Tensor.mk [[0]] 1 1 : Tensor ℝ)).data,
      r.sum = 1 ∧ ∀ v ∈ r, 0 ≤ v ∧ v ≤ 1 :=
  ⟨⟨by simp, by simp⟩, by simp,
    C9_softmax_rows_normalized (Tensor.mk [[0]] 1 1) ⟨by simp, by simp⟩ (by simp)⟩

/-- C9 counterexample: for the well-formed all-finite tensor `[[]]`
(1 row, 0 columns) the single output row sums to `0`, not `1`, so the claim
as stated over every well-formed tensor fails. -/
theorem C9_softmax_empty_row_counterexample :
    (Tensor.mk [[]] 1 0 : Tensor ℝ).WellFormed ∧
    ¬ (∀ r ∈ (Act.softmaxForward (Tensor.mk [[]] 1 0 : Tensor ℝ)).data,
        r.sum = 1) := by
  refine ⟨⟨by simp, by simp⟩, ?_⟩
  intro hcon
  have h0 : ([] : List ℝ) ∈ (Act.softmaxForward (Tensor.mk [[]] 1 0 : Tensor ℝ)).data := by
    simp [Act.softmaxForward]
  have := hcon [] h0
  simp at this

namespace Opt

/-- `multiplyScalar` helper from `src/lib/optimizers.ts`. -/
noncomputable def multiplyScalar (t : Tensor ℝ) (scalar : ℝ) : Tensor ℝ :=
  { data := t.data.map fun row => row.map fun val => val * scalar
    rows := t.rows
    cols := t.cols }

/-- `subtract` helper from `src/lib/optimizers.ts`. -/
noncomputable def subtract (a b : Tensor ℝ) : Tensor ℝ :=
  { data := List.zipWith (List.zipWith (· - ·)) a.data b.data
    rows := a.rows
    cols := a.cols }

/-- `add` helper from `src/lib/optimizers.ts`. -/
noncomputable def add (a b : Tensor ℝ) : Tensor ℝ :=
  { data := List.zipWith (List.zipWith (· + ·)) a.data b.data
    rows := a.rows
    cols := a.cols }

/-- `elementwiseMultiply` helper from `src/lib/optimizers.ts`. -/
noncomputable def elementwiseMultiply (a b : Tensor ℝ) : Tensor ℝ :=
  { data := List.zipWith (List.zipWith (· * ·)) a.data b.data
    rows := a.rows
    cols := a.cols }

/-- `elementwiseDivide` helper from `src/lib/optimizers.ts`:
`a / (b + epsilon)` elementwise. -/
noncomputable def elementwiseDivide (a b : Tensor ℝ) (epsilon : ℝ) : Tensor ℝ :=
  { data := List.zipWith (List.zipWith fun x y => x / (y + epsilon)) a.data b.data
    rows := a.rows
    cols := a.cols }

/-- `sqrt` helper from `src/lib/optimizers.ts` (elementwise `Math.sqrt`). -/
noncomputable def sqrtT (t : Tensor ℝ) : Tensor ℝ :=
  { data := t.data.map fun row => row.map fun val => Real.sqrt val
    rows := t.rows
    cols := t.cols }

/-- Adam's `beta1 = 0.9`. -/
noncomputable def beta1 : ℝ := 9 / 10

/-- Adam's `beta2 = 0.999`. -/
noncomputable def beta2 : ℝ := 999 / 1000

/-- Adam's `epsilon = 1e-8`. -/
noncomputable def epsilon : ℝ := 1 / 10 ^ 8

/-- The mutable state of the `Adam` class in `src/lib/optimizers.ts`: moment
maps keyed by tensor shape (the string key `"RxC"` is modelled by the pair
`(rows, cols)`, and the bias key `` `${length}` `` by the length), plus the
single shared step counter `t`. -/
structure AdamState where
  m : ℕ × ℕ → Option (Tensor ℝ)
  v : ℕ × ℕ → Option (Tensor ℝ)
  biasM : ℕ → Option (List ℝ)
  biasV : ℕ → Option (List ℝ)
  t : ℕ

/-- Adam's state after construction / `reset()`: empty maps, `t = 0`. -/
def adamInit : AdamState :=
  { m := fun _ => none, v := fun _ => none
    biasM := fun _ => none, biasV := fun _ => none, t := 0 }

/-- The zero tensor shaped like `gradients`, as initialised by `Adam.update`
for an unseen shape key. -/
noncomputable def zeroLike (g : Tensor ℝ) : Tensor ℝ :=
  { data := g.data.map fun row => row.map fun _ => 0
    rows := g.rows
    cols := g.cols }

/-- `Adam.update` from `src/lib/optimizers.ts`: increments the shared `t`,
updates the first/second moment estimates for the weight shape key, and
returns `w - lr * mHat / (sqrt vHat + ε)` with both moments bias-corrected
by `1 - βᵗ` at the incremented `t`. -/
noncomputable def adamUpdate (weights gradients : Tensor ℝ) (learningRate : ℝ)
    (s : AdamState) : Tensor ℝ × AdamState :=
  let key := (weights.rows, weights.cols)
  let t' := s.t + 1
  let m0 := match s.m key with | none => zeroLike gradients | some m => m
  let v0 := match s.v key with | none => zeroLike gradients | some v => v
  let mNew := add (multiplyScalar m0 beta1) (multiplyScalar gradients (1 - beta1))
  let gradientsSquared := elementwiseMultiply gradients gradients
  let vNew := add (multiplyScalar v0 beta2) (multiplyScalar gradientsSquared (1 - beta2))
  let mHat := multiplyScalar mNew (1 / (1 - beta1 ^ t'))
  let vHat := multiplyScalar vNew (1 / (1 - beta2 ^ t'))
  let upd := elementwiseDivide (multiplyScalar mHat learningRate) (sqrtT vHat) epsilon
  (subtract weights upd,
    { s with
      t := t'
      m := fun k => if k = key then some mNew else s.m k
      v := fun k => if k = key then some vNew else s.v k })

/-- `Adam.updateBias` from `src/lib/optimizers.ts`: the bias-vector analogue
of `adamUpdate`, incrementing the same shared `t`. -/
noncomputable def adamUpdateBias (bias gradients : List ℝ) (learningRate : ℝ)
    (s : AdamState) : List ℝ × AdamState :=
  let key := bias.length
  let t' := s.t + 1
  let m0 := match s.biasM key with | none => List.replicate bias.length 0 | some m => m
  let v0 := match s.biasV key with | none => List.replicate bias.length 0 | some v => v
  let mNew := List.zipWith (fun mi gi => beta1 * mi + (1 - beta1) * gi) m0 gradients
  let vNew := List.zipWith (fun vi gi => beta2 * vi + (1 - beta2) * gi * gi) v0 gradients
  let mHat := mNew.map fun mi => mi / (1 - beta1 ^ t')
  let vHat := vNew.map fun vi => vi / (1 - beta2 ^ t')
  (bias.enum.map fun ib =>
      ib.2 - learningRate * (mHat.getD ib.1 0) / (Real.sqrt (vHat.getD ib.1 0) + epsilon),
    { s with
      t := t'
      biasM := fun k => if k = key then some mNew else s.biasM k
      biasV := fun k => if k = key then some vNew else s.biasV k })

end Opt

/-- C3: every `Adam.update` and every `Adam.updateBias` call increments the
single shared step counter `t` by exactly one, and the bias-correction
factors `1-β₁ᵗ`/`1-β₂ᵗ` are computed from that shared `t`: starting from a
fresh state, a weight update uses `t = 1` and the following bias update uses
`t = 2` (shown on 1×1 weights and length-1 biases with arbitrary entries). -/
theorem C3_adam_shared_step_counter :
    (∀ (w g : Tensor ℝ) (lr : ℝ) (s : Opt.AdamState),
        ((Opt.adamUpdate w g lr s).2).t = s.t + 1) ∧
    (∀ (b gb : List ℝ) (lr : ℝ) (s : Opt.AdamState),
        ((Opt.adamUpdateBias b gb lr s).2).t = s.t + 1) ∧
    (∀ (w1 g1 lr b1 gb1 lr' : ℝ),
      ((Opt.adamUpdate (Tensor.mk [[w1]] 1 1) (Tensor.mk [[g1]] 1 1) lr
          Opt.adamInit).2).t = 1 ∧
      (Opt.adamUpdate (Tensor.mk [[w1]] 1 1) (Tensor.mk [[g1]] 1 1) lr
          Opt.adamInit).1 =
        Tensor.mk [[w1 - lr * ((1 - Opt.beta1) * g1 / (1 - Opt.beta1 ^ 1)) /
          (Real.sqrt ((1 - Opt.beta2) * (g1 * g1) / (1 - Opt.beta2 ^ 1)) +
            Opt.epsilon)]] 1 1 ∧
      ((Opt.adamUpdateBias [b1] [gb1] lr'
          (Opt.adamUpdate (Tensor.mk [[w1]] 1 1) (Tensor.mk [[g1]] 1 1) lr
            Opt.adamInit).2).2).t = 2 ∧
      (Opt.adamUpdateBias [b1] [gb1] lr'
          (Opt.adamUpdate (Tensor.mk [[w1]] 1 1) (Tensor.mk [[g1]] 1 1) lr
            Opt.adamInit).2).1 =
        [b1 - lr' * ((1 - Opt.beta1) * gb1 / (1 - Opt.beta1 ^ 2)) /
          (Real.sqrt ((1 - Opt.beta2) * (gb1 * gb1) / (1 - Opt.beta2 ^ 2)) +
            Opt.epsilon)]) := by
  refine ⟨fun w g lr s => rfl, fun b gb lr s => rfl, fun w1 g1 lr b1 gb1 lr' =>
    ⟨rfl, ?_, rfl, ?_⟩⟩
  · simp only [Opt.adamUpdate, Opt.adamInit, Opt.add, Opt.multiplyScalar,
      Opt.subtract, Opt.elementwiseMultiply, Opt.elementwiseDivide, Opt.sqrtT,
      Opt.zeroLike, List.map_cons, List.map_nil, List.zipWith_cons_cons,
      List.zipWith_nil_right, List.zipWith_nil_left]
    congr 3
    rw [show (0 * Opt.beta2 + g1 * g1 * (1 - Opt.beta2)) *
        (1 / (1 - Opt.beta2 ^ (0 + 1))) =
      (1 - Opt.beta2) * (g1 * g1) / (1 - Opt.beta2 ^ 1) from by norm_num; ring]
    ring
  · simp only [Opt.adamUpdateBias, Opt.adamUpdate, Opt.adamInit, Opt.add,
      Opt.multiplyScalar, Opt.subtract, Opt.elementwiseMultiply,
      Opt.elementwiseDivide, Opt.sqrtT, Opt.zeroLike, List.map_cons,
      List.map_nil, List.zipWith_cons_cons, List.zipWith_nil_right,
      List.zipWith_nil_left, List.replicate, List.enum, List.enumFrom,
      List.getD_cons_zero]
    congr 1
    rw [show (Opt.beta2 * 0 + (1 - Opt.beta2) * gb1 * gb1) /
        (1 - Opt.beta2 ^ (0 + 1 + 1)) =
      (1 - Opt.beta2) * (gb1 * gb1) / (1 - Opt.beta2 ^ 2) from by norm_num; ring]
    ring

/-- The IEEE-like value model for claims whose point is behaviour under
non-finite numbers: a finite rational, a signed infinity (`inf true` is
`+Infinity`), or `NaN`.  Overflow of finite arithmetic is not modelled. -/
inductive JNum where
  | fin (q : ℚ)
  | inf (pos : Bool)
  | nan
  deriving Repr, DecidableEq

instance : Zero JNum := ⟨.fin 0⟩

namespace JNum

/-- JavaScript's `isFinite`. -/
def isFinite : JNum → Bool
  | fin _ => true
  | _ => false

/-- `Math.min` (NaN-propagating). -/
def jmin : JNum → JNum → JNum
  | nan, _ => nan
  | _, nan => nan
  | fin a, fin b => fin (min a b)
  | fin a, inf true => fin a
  | fin _, inf false => inf false
  | inf true, fin b => fin b
  | inf false, fin _ => inf false
  | inf true, inf b => inf b
  | inf false, inf _ => inf false

/-- `Math.max` (NaN-propagating). -/
def jmax : JNum → JNum → JNum
  | nan, _ => nan
  | _, nan => nan
  | fin a, fin b => fin (max a b)
  | fin _, inf true => inf true
  | fin a, inf false => fin a
  | inf true, fin _ => inf true
  | inf false, fin b => fin b
  | inf true, inf _ => inf true
  | inf false, inf b => inf b

/-- IEEE multiplication (`0 * Infinity = NaN`). -/
def jmul : JNum → JNum → JNum
  | nan, _ => nan
  | _, nan => nan
  | fin a, fin b => fin (a * b)
  | fin a, inf p => if a = 0 then nan else inf (decide (0 < a) == p)
  | inf p, fin b => if b = 0 then nan else inf (decide (0 < b) == p)
  | inf p, inf q => inf (p == q)

/-- IEEE subtraction (`Infinity - Infinity = NaN`). -/
def jsub : JNum → JNum → JNum
  | nan, _ => nan
  | _, nan => nan
  | fin a, fin b => fin (a - b)
  | fin _, inf p => inf (!p)
  | inf p, fin _ => inf p
  | inf p, inf q => if p = q then nan else inf p

end JNum

namespace NN

/-- `Math.max(-clipValue, Math.min(clipValue, val))`, the elementwise clip of
`clipTensor` / the bias clip in `Layer.updateWeights`. -/
def jclip (clipValue : ℚ) (val : JNum) : JNum :=
  JNum.jmax (.fin (-clipValue)) (JNum.jmin (.fin clipValue) val)

/-- `clipTensor` from `src/lib/neural-network.ts`. -/
def clipTensor (t : Tensor JNum) (clipValue : ℚ) : Tensor JNum :=
  { data := t.data.map fun row => row.map fun val => jclip clipValue val
    rows := t.rows
    cols := t.cols }

/-- `multiplyScalar` over the IEEE-like value model. -/
def multiplyScalarJ (t : Tensor JNum) (scalar : JNum) : Tensor JNum :=
  { data := t.data.map fun row => row.map fun val => JNum.jmul val scalar
    rows := t.rows
    cols := t.cols }

/-- `subtract` over the IEEE-like value model. -/
def subtractJ (a b : Tensor JNum) : Tensor JNum :=
  { data := List.zipWith (List.zipWith JNum.jsub) a.data b.data
    rows := a.rows
    cols := a.cols }

/-- The numeric fields of `Layer` from `src/lib/neural-network.ts` relevant
to `updateWeights`, over the IEEE-like value model (the activation and the
forward/backward caches are irrelevant to that method). -/
structure Layer where
  weights : Tensor JNum
  bias : List JNum
  weightGrad : Option (Tensor JNum)
  biasGrad : Option (List JNum)
  deriving DecidableEq

/-- `Layer.updateWeights` from `src/lib/neural-network.ts`: no-op if either
gradient is absent; otherwise clips both gradients to `[-5, 5]`, applies
`w -= lr*grad` / `b -= lr*grad`, keeps the old bias entry whenever the new
value is non-finite, and finally replaces every non-finite weight entry
with `0`. -/
def Layer.updateWeights (l : Layer) (learningRate : ℚ) : Layer :=
  match l.weightGrad, l.biasGrad with
  | some wg, some bg =>
    let clipValue : ℚ := 5
    let clippedWeightGrad := clipTensor wg clipValue
    let clippedBiasGrad := bg.map fun g => jclip clipValue g
    let weightUpdate := multiplyScalarJ clippedWeightGrad (.fin learningRate)
    let weights1 := subtractJ l.weights weightUpdate
    let bias1 := l.bias.enum.map fun ib =>
      let newVal := JNum.jsub ib.2
        (JNum.jmul (.fin learningRate) (clippedBiasGrad.getD ib.1 .nan))
      if newVal.isFinite then newVal else ib.2
    let weights2 := { weights1 with
      data := weights1.data.map fun row => row.map fun val =>
        if val.isFinite then val else .fin 0 }
    { l with weights := weights2, bias := bias1 }
  | _, _ => l

end NN

theorem getD_map_of_lt {β γ : Type} (f : β → γ) (l : List β) (d : γ) (d2 : β)
    {i : ℕ} (h : i < l.length) :
    (l.map f).getD i d = f (l.getD i d2) := by
  rw [List.getD_eq_getElem _ _ (by simpa using h), List.getElem_map,
    List.getD_eq_getElem _ _ h]

/-- C4: `Layer.updateWeights` is a no-op when either gradient is absent;
otherwise every resulting weight entry is finite, each weight entry equals
the sanitised `w - clip(grad)*lr`, and each bias entry equals
`b - lr*clip(grad)` when that value is finite and the prior `b` otherwise,
so a finite prior bias stays finite. -/
theorem C4_updateWeights_clip_sanitize (l : NN.Layer) (lr : ℚ) :
    ((l.weightGrad = none ∨ l.biasGrad = none) → l.updateWeights lr = l) ∧
    (∀ wg bg, l.weightGrad = some wg → l.biasGrad = some bg →
      (∀ row ∈ (l.updateWeights lr).weights.data, ∀ v ∈ row, v.isFinite = true) ∧
      (l.weights.WellFormed → wg.WellFormed → wg.rows = l.weights.rows →
        wg.cols = l.weights.cols →
        ∀ i j, i < l.weights.rows → j < l.weights.cols →
          (l.updateWeights lr).weights.ent i j =
            (if (JNum.jsub (l.weights.ent i j)
                  (JNum.jmul (NN.jclip 5 (wg.ent i j)) (.fin lr))).isFinite then
              JNum.jsub (l.weights.ent i j)
                (JNum.jmul (NN.jclip 5 (wg.ent i j)) (.fin lr))
            else .fin 0)) ∧
      (bg.length = l.bias.length →
        ∀ i, i < l.bias.length →
          (l.updateWeights lr).bias.getD i .nan =
            (if (JNum.jsub (l.bias.getD i .nan)
                  (JNum.jmul (.fin lr) (NN.jclip 5 (bg.getD i .nan)))).isFinite then
              JNum.jsub (l.bias.getD i .nan)
                (JNum.jmul (.fin lr) (NN.jclip 5 (bg.getD i .nan)))
            else l.bias.getD i .nan) ∧
          ((l.bias.getD i .nan).isFinite = true →
            ((l.updateWeights lr).bias.getD i .nan).isFinite = true))) := by
  constructor
  · intro h
    unfold NN.Layer.updateWeights
    rcases h with h | h
    · rw [h]
    · rw [h]
      cases l.weightGrad <;> rfl
  · intro wg bg hwg hbg
    have hupd : l.updateWeights lr =
        NN.Layer.mk
          (Tensor.mk
            ((List.zipWith (List.zipWith JNum.jsub) l.weights.data
              ((wg.data.map fun row => row.map fun val => NN.jclip 5 val).map
                fun row => row.map fun val => JNum.jmul val (.fin lr))).map
              fun row => row.map fun val => if val.isFinite then val else .fin 0)
            l.weights.rows l.weights.cols)
          (l.bias.enum.map fun ib =>
            if (JNum.jsub ib.2 (JNum.jmul (.fin lr)
                ((bg.map fun g => NN.jclip 5 g).getD ib.1 .nan))).isFinite then
              JNum.jsub ib.2 (JNum.jmul (.fin lr)
                ((bg.map fun g => NN.jclip 5 g).getD ib.1 .nan))
            else ib.2)
          l.weightGrad l.biasGrad := by
      unfold NN.Layer.updateWeights
      rw [hwg, hbg]
      rfl
    refine ⟨?_, ?_, ?_⟩
    · intro row hrow v hv
      rw [hupd] at hrow
      simp only at hrow
      obtain ⟨row0, _, rfl⟩ := List.mem_map.mp hrow
      obtain ⟨x, _, rfl⟩ := List.mem_map.mp hv
      by_cases hx : x.isFinite
      · rw [if_pos hx]; exact hx
      · rw [if_neg hx]; rfl
    · intro hw hg hr hc i j hi hj
      obtain ⟨hwlen, hwrow⟩ := hw
      obtain ⟨hglen, hgrow⟩ := hg
      have hi1 : i < l.weights.data.length := by omega
      have hi2 : i < wg.data.length := by omega
      have hrowW : (l.weights.data[i]).length = l.weights.cols :=
        hwrow _ (l.weights.data.getElem_mem hi1)
      have hrowG : (wg.data[i]).length = wg.cols :=
        hgrow _ (wg.data.getElem_mem hi2)
      have hj1 : j < (l.weights.data[i]).length := by omega
      have hj2 : j < (wg.data[i]).length := by omega
      rw [hupd]
      have hlen1 : i < ((List.zipWith (List.zipWith JNum.jsub) l.weights.data
          ((wg.data.map fun row => row.map fun val => NN.jclip 5 val).map
            fun row => row.map fun val => JNum.jmul val (.fin lr))).map
          fun row => row.map fun val => if val.isFinite then val else .fin 0).length := by
        simp only [List.length_map, List.length_zipWith]
        omega
      show ((((List.zipWith (List.zipWith JNum.jsub) l.weights.data
          ((wg.data.map fun row => row.map fun val => NN.jclip 5 val).map
            fun row => row.map fun val => JNum.jmul val (.fin lr))).map
          fun row => row.map fun val => if val.isFinite then val else .fin 0).getD i []).getD j 0) = _
      rw [List.getD_eq_getElem _ _ hlen1, List.getElem_map, List.getElem_zipWith,
        List.getElem_map, List.getElem_map]
      have hj3 : j < (List.zipWith JNum.jsub (l.weights.data[i])
          (((wg.data[i]).map fun val => NN.jclip 5 val).map
            fun val => JNum.jmul val (.fin lr))).length := by
        simp only [List.length_zipWith, List.length_map]
        omega
      rw [List.getD_eq_getElem _ _ (by simpa using hj3), List.getElem_map,
        List.getElem_zipWith, List.getElem_map, List.getElem_map,
        NN.ent_eq _ hi1 hj1, NN.ent_eq _ hi2 hj2]
    · intro hlen i hib
      have hentry : (l.updateWeights lr).bias.getD i .nan =
          (if (JNum.jsub (l.bias.getD i .nan)
                (JNum.jmul (.fin lr) (NN.jclip 5 (bg.getD i .nan)))).isFinite then
            JNum.jsub (l.bias.getD i .nan)
              (JNum.jmul (.fin lr) (NN.jclip 5 (bg.getD i .nan)))
          else l.bias.getD i .nan) := by
        rw [hupd]
        show (l.bias.enum.map fun ib =>
            if (JNum.jsub ib.2 (JNum.jmul (.fin lr)
                ((bg.map fun g => NN.jclip 5 g).getD ib.1 .nan))).isFinite then
              JNum.jsub ib.2 (JNum.jmul (.fin lr)
                ((bg.map fun g => NN.jclip 5 g).getD ib.1 .nan))
            else ib.2).getD i .nan = _
        rw [Losses.getD_enum_map _ _ _ hib]
        have hbgi : i < bg.length := by omega
        rw [getD_map_of_lt _ _ _ JNum.nan hbgi,
          List.getD_eq_getElem _ _ hib]
      refine ⟨hentry, ?_⟩
      intro hfin
      rw [hentry]
      by_cases hc : (JNum.jsub (l.bias.getD i .nan)
          (JNum.jmul (.fin lr) (NN.jclip 5 (bg.getD i .nan)))).isFinite
      · rw [if_pos hc]; exact hc
      · rw [if_neg hc]; exact hfin

/-- Witness for C4: a layer with an `Infinity` weight gradient (clipped to 5,
giving `1 - 1*5 = -4`) and a `NaN` bias gradient (update rejected, prior bias
`2` kept). -/
theorem C4_updateWeights_clip_sanitize_witness :
    ((NN.Layer.mk (Tensor.mk [[JNum.fin 1]] 1 1) [JNum.fin 2]
        (some (Tensor.mk [[JNum.inf true]] 1 1))
        (some [JNum.nan])).updateWeights 1).weights.ent 0 0 = JNum.fin (-4) ∧
    ((NN.Layer.mk (Tensor.mk [[JNum.fin 1]] 1 1) [JNum.fin 2]
        (some (Tensor.mk [[JNum.inf true]] 1 1))
        (some [JNum.nan])).updateWeights 1).bias.getD 0 .nan = JNum.fin 2 := by
  have h := C4_updateWeights_clip_sanitize
    (NN.Layer.mk (Tensor.mk [[JNum.fin 1]] 1 1) [JNum.fin 2]
      (some (Tensor.mk [[JNum.inf true]] 1 1)) (some [JNum.nan])) 1
  have h3 := h.2 (Tensor.mk [[JNum.inf true]] 1 1) [JNum.nan] rfl rfl
  constructor
  · rw [h3.2.1 (by decide) (by decide) rfl rfl 0 0 (by decide) (by decide)]
    norm_num [Tensor.ent, NN.jclip, JNum.jmin, JNum.jmax, JNum.jsub, JNum.jmul,
      JNum.isFinite]
  · rw [(h3.2.2 (by decide) 0 (by decide)).1]
    norm_num [NN.jclip, JNum.jmin, JNum.jmax, JNum.jsub, JNum.jmul, JNum.isFinite]

namespace DE

/-- Activation capability as consumed by `Layer` (`forward` plus `backward`
taking the output gradient and the stored pre-activation input), from
`src/lib/types.ts` / `src/lib/activations.ts`.  The step-machine claims hold
for every implementation, so it is kept abstract here. -/
structure ActivationFunction where
  forward : Tensor ℚ → Tensor ℚ
  backward : Tensor ℚ → Tensor ℚ → Tensor ℚ

/-- Loss capability (`compute`, `gradient`), from `src/lib/types.ts`. -/
structure LossFunction where
  compute : Tensor ℚ → Tensor ℚ → ℚ
  gradient : Tensor ℚ → Tensor ℚ → Tensor ℚ

/-- `Layer` from `src/lib/neural-network.ts` (exact-rational scalar model):
weights, bias, activation, and the transient forward/backward caches. -/
structure Layer where
  weights : Tensor ℚ
  bias : List ℚ
  activation : ActivationFunction
  lastInput : Option (Tensor ℚ)
  preActivationOutput : Option (Tensor ℚ)
  weightGrad : Option (Tensor ℚ)
  biasGrad : Option (List ℚ)

/-- `Layer.forward`: caches `lastInput` and the pre-activation
`input @ W^T + b`, returns the activated output. -/
def Layer.forward (l : Layer) (input : Tensor ℚ) : Tensor ℚ × Layer :=
  let weightsT := NN.transpose l.weights
  let z := NN.matmul input weightsT
  let output := NN.broadcastAdd z l.bias
  (l.activation.forward output,
    { l with lastInput := some input, preActivationOutput := some output })

/-- `Layer.backward`: requires the forward caches, stores the weight/bias
gradients, returns the input gradient. -/
def Layer.backward (l : Layer) (outputGrad : Tensor ℚ) :
    Except String (Tensor ℚ × Layer) :=
  match l.lastInput, l.preActivationOutput with
  | some lastInput, some pre =>
    let activationGrad := l.activation.backward outputGrad pre
    let weightGrad := NN.matmul (NN.transpose activationGrad) lastInput
    let biasGrad := NN.colSum activationGrad
    .ok (NN.matmul activationGrad l.weights,
      { l with weightGrad := some weightGrad, biasGrad := some biasGrad })
  | _, _ => .error "Forward pass must be called before backward"

/-- `Network` from `src/lib/neural-network.ts`: the layer list and loss. -/
structure Network where
  layers : List Layer
  lossFunction : LossFunction

/-- Modelled from the spec: `Network.forwardLayer(i, input)` is called by the
debug engine (`src/lib/debug-engine.ts`) but its definition is not under
`src/`; per §4.7 it runs layer `i`'s forward on the given input.  A missing
layer index is modelled as an error (a `TypeError` in JS). -/
def Network.forwardLayer (n : Network) (i : ℕ) (input : Tensor ℚ) :
    Except String (Tensor ℚ × Network) :=
  match n.layers.get? i with
  | none => .error "TypeError: no such layer"
  | some l =>
    let r := l.forward input
    .ok (r.1, { n with layers := n.layers.set i r.2 })

/-- The per-layer weight/bias state captured in snapshots.  Modelled from the
spec (§3 `StepSnapshot`): `Network.getState` is not under `src/`; the debug
engine's `restoreState` consumes exactly `weights`, `biases` and the optional
`activations`.  The `gradients` display field is not modelled. -/
structure NetworkState where
  weights : List (Tensor ℚ)
  biases : List (List ℚ)
  activations : Option (List (Tensor ℚ))

/-- `stepType` values of `StepSnapshot` (`src/lib/types.ts`). -/
inductive StepType where
  | forward
  | backward
  | loss
  | update
  deriving Repr, DecidableEq

/-- `StepSnapshot` from `src/lib/types.ts`, restricted to the fields the
claims touch (the display-only `computation` detail and the wall-clock
`timestamp` are not modelled). -/
structure StepSnapshot where
  stepType : StepType
  layerIndex : Option ℕ
  networkState : NetworkState
  stepNumber : Int

/-- The mutable state of the `DebugEngine` class (`src/lib/debug-engine.ts`).
The engine's optimizer (used only by `stepUpdateWeights`/`trainOneEpoch`,
which no claim exercises) is not modelled. -/
structure DebugEngine where
  network : Network
  stepHistory : List StepSnapshot
  currentStepIndex : Int
  currentInput : Option (Tensor ℚ)
  currentTarget : Option (Tensor ℚ)
  forwardActivations : List (Tensor ℚ)
  currentLoss : Option ℚ
  lossGradient : Option (Tensor ℚ)

/-- `setData` from `src/lib/debug-engine.ts`: stores the batch and resets the
caches, the history and the step index (to `-1`). -/
def setData (input target : Tensor ℚ) (e : DebugEngine) : DebugEngine :=
  { e with
    currentInput := some input
    currentTarget := some target
    forwardActivations := []
    currentLoss := none
    lossGradient := none
    stepHistory := []
    currentStepIndex := -1 }

/-- `getCurrentState`: the layer weights/biases plus the cached forward
activations when nonempty (mirrors `forwardActivations.length > 0 ? ... :
undefined`; `Network.getState` itself is modelled from the spec, §3). -/
def getCurrentState (e : DebugEngine) : NetworkState :=
  { weights := e.network.layers.map fun l => l.weights
    biases := e.network.layers.map fun l => l.bias
    activations :=
      if e.forwardActivations.isEmpty then none else some e.forwardActivations }

/-- `getStepHistory`: `stepHistory.slice(0, currentStepIndex + 1)`. -/
def getStepHistory (e : DebugEngine) : List StepSnapshot :=
  e.stepHistory.take (e.currentStepIndex + 1).toNat

/-- The common snapshot-append tail of every step method: build the snapshot
from the (already mutated) engine, increment the index, truncate any redo
future and push. -/
def pushSnapshot (e : DebugEngine) (stepType : StepType)
    (layerIndex : Option ℕ) : StepSnapshot × DebugEngine :=
  let snapshot : StepSnapshot :=
    { stepType := stepType
      layerIndex := layerIndex
      networkState := getCurrentState e
      stepNumber := e.currentStepIndex + 1 }
  (snapshot,
    { e with
      currentStepIndex := e.currentStepIndex + 1
      stepHistory := e.stepHistory.take (e.currentStepIndex + 1).toNat ++ [snapshot] })

/-- JavaScript array index assignment `a[i] = v`: in-range writes set, the
write at `a.length` appends, and farther writes create holes (modelled by the
given default; the engine only ever writes in order, so holes never arise in
the claims below). -/
def listAssign {α : Type} (l : List α) (i : ℕ) (v : α) (dflt : α) : List α :=
  if i < l.length then l.set i v
  else l ++ List.replicate (i - l.length) dflt ++ [v]

/-- `stepForwardLayer` from `src/lib/debug-engine.ts`: requires data, feeds
layer `i` with the raw input (`i = 0`) or the previous cached activation,
stores the activation and appends a `forward` snapshot. -/
def stepForwardLayer (layerIndex : ℕ) (e : DebugEngine) :
    Except String (StepSnapshot × DebugEngine) :=
  match e.currentInput with
  | none => .error "No input data set"
  | some inp =>
    match (if layerIndex = 0 then some inp
           else e.forwardActivations.get? (layerIndex - 1)) with
    | none => .error "TypeError: undefined activation"
    | some input =>
      match e.network.forwardLayer layerIndex input with
      | .error s => .error s
      | .ok r =>
        let e1 := { e with
          network := r.2
          forwardActivations :=
            listAssign e.forwardActivations layerIndex r.1 (Tensor.mk [] 0 0) }
        .ok (pushSnapshot e1 .forward (some layerIndex))

/-- The `for` loop in `stepComputeLoss` completing the forward pass: runs
every layer in order, collecting each activation and the updated layers. -/
def runLayers : List Layer → Tensor ℚ → List (Tensor ℚ) × List Layer
  | [], _ => ([], [])
  | l :: ls, input =>
    let r := l.forward input
    let rest := runLayers ls r.1
    (r.1 :: rest.1, r.2 :: rest.2)

/-- The completion guard at the top of `stepComputeLoss`: when the activation
cache is incomplete, rerun the whole forward pass. -/
def completeForward (e : DebugEngine) (inp : Tensor ℚ) : DebugEngine :=
  if e.forwardActivations.length < e.network.layers.length then
    let r := runLayers e.network.layers inp
    { e with
      forwardActivations := r.1
      network := { e.network with layers := r.2 } }
  else e

theorem completeForward_lossGradient (e : DebugEngine) (inp : Tensor ℚ) :
    (completeForward e inp).lossGradient = e.lossGradient := by
  unfold completeForward
  split <;> rfl

/-- `stepComputeLoss` from `src/lib/debug-engine.ts`: requires data, completes
the forward pass when the activation cache is incomplete, caches the scalar
loss and appends a `loss` snapshot.  A missing final activation (no layers)
is modelled as an error (a `TypeError` in JS). -/
def stepComputeLoss (e : DebugEngine) :
    Except String (StepSnapshot × DebugEngine) :=
  match e.currentInput, e.currentTarget with
  | some inp, some tgt =>
    let e1 := completeForward e inp
    match e1.forwardActivations.getLast? with
    | none => .error "TypeError: no predictions"
    | some predictions =>
      let loss := e1.network.lossFunction.compute predictions tgt
      let e2 := { e1 with currentLoss := some loss }
      .ok (pushSnapshot e2 .loss none)
  | _, _ => .error "Input and target data must be set"

/-- `stepBackwardLossGradient` from `src/lib/debug-engine.ts`: requires a
prior loss, computes the loss gradient against the final activation and
appends a `backward` snapshot. -/
def stepBackwardLossGradient (e : DebugEngine) :
    Except String (StepSnapshot × DebugEngine) :=
  match e.currentTarget, e.currentLoss with
  | some tgt, some _ =>
    match e.forwardActivations.getLast? with
    | none => .error "TypeError: no predictions"
    | some predictions =>
      let grad := e.network.lossFunction.gradient predictions tgt
      let e1 := { e with lossGradient := some grad }
      .ok (pushSnapshot e1 .backward none)
  | _, _ => .error "Must compute loss first"

/-- `stepBackwardLayer` from `src/lib/debug-engine.ts`: requires the loss
gradient; only the **last** layer index is accepted (`i + 1 = layers.length`,
written in the source as `layerIndex === this.network.layers.length - 1`) —
every other index throws `'Backward pass must be done in reverse order'`.
On success it runs that layer's backward on the loss gradient and appends a
`backward` snapshot. -/
def stepBackwardLayer (layerIndex : ℕ) (e : DebugEngine) :
    Except String (StepSnapshot × DebugEngine) :=
  match e.lossGradient with
  | none => .error "Must compute loss gradient first"
  | some lossGrad =>
    if layerIndex + 1 = e.network.layers.length then
      match e.network.layers.get? layerIndex with
      | none => .error "TypeError: no such layer"
      | some layer =>
        match layer.backward lossGrad with
        | .error s => .error s
        | .ok r =>
          let e1 := { e with
            network := { e.network with
              layers := e.network.layers.set layerIndex r.2 } }
          .ok (pushSnapshot e1 .backward (some layerIndex))
    else .error "Backward pass must be done in reverse order"

/-- `restoreState`: writes the snapshot's weights/biases back onto the live
layers and restores the cached activations when the snapshot has them. -/
def restoreState (e : DebugEngine) (snapshot : StepSnapshot) : DebugEngine :=
  { e with
    network := { e.network with
      layers := e.network.layers.enum.map fun il =>
        { il.2 with
          weights := snapshot.networkState.weights.getD il.1 il.2.weights
          bias := snapshot.networkState.biases.getD il.1 il.2.bias } }
    forwardActivations :=
      match snapshot.networkState.activations with
      | some acts => acts
      | none => e.forwardActivations }

/-- `undo` from `src/lib/debug-engine.ts`: fails (returns `false`) whenever
`currentStepIndex <= 0`; otherwise decrements the index and restores that
snapshot.  (The out-of-range history read is unreachable in engine runs.) -/
def undo (e : DebugEngine) : Bool × DebugEngine :=
  if e.currentStepIndex ≤ 0 then (false, e)
  else
    let e1 := { e with currentStepIndex := e.currentStepIndex - 1 }
    match e.stepHistory.get? (e.currentStepIndex - 1).toNat with
    | none => (true, e1)
    | some snapshot => (true, restoreState e1 snapshot)

end DE

namespace DE

/-- The `Linear` activation from `src/lib/activations.ts` (identity forward,
pass-through backward), packaged for the engine's layers. -/
def linearActivation : ActivationFunction :=
  ⟨fun input => input, fun outputGrad _ => outputGrad⟩

/-- The MSE loss bundle (`compute`/`gradient` from the losses module). -/
def mseLoss : LossFunction := ⟨Losses.MSEcompute, Losses.MSEgradient⟩

/-- A fresh 1→1 linear layer with weight `[[1]]` and zero bias (the random
initialisation of the `Layer` constructor is irrelevant to the step-machine
claims, so concrete weights are used). -/
def exLayer : Layer :=
  ⟨Tensor.mk [[1]] 1 1, [0], linearActivation, none, none, none, none⟩

/-- A freshly constructed single-layer engine. -/
def exEngine1 : DebugEngine :=
  ⟨⟨[exLayer], mseLoss⟩, [], -1, none, none, [], none, none⟩

/-- A freshly constructed two-layer engine. -/
def exEngine2 : DebugEngine :=
  ⟨⟨[exLayer, exLayer], mseLoss⟩, [], -1, none, none, [], none, none⟩

end DE

/-- C6: `stepBackwardLayer(0)` before the forward/loss/loss-gradient steps
have completed fails with the precondition error: `setData` clears
`lossGradient`, neither `stepForwardLayer` nor `stepComputeLoss` sets it, and
`stepBackwardLayer` refuses to run while it is absent. -/
theorem C6_stepBackwardLayer_requires_loss_gradient :
    (∀ (e : DE.DebugEngine) (inp tgt : Tensor ℚ),
      (DE.setData inp tgt e).lossGradient = none) ∧
    (∀ (e : DE.DebugEngine) (i : ℕ) (s : DE.StepSnapshot) (e1 : DE.DebugEngine),
      DE.stepForwardLayer i e = .ok (s, e1) →
      e.lossGradient = none → e1.lossGradient = none) ∧
    (∀ (e : DE.DebugEngine) (s : DE.StepSnapshot) (e1 : DE.DebugEngine),
      DE.stepComputeLoss e = .ok (s, e1) →
      e.lossGradient = none → e1.lossGradient = none) ∧
    (∀ e : DE.DebugEngine, e.lossGradient = none →
      DE.stepBackwardLayer 0 e = .error "Must compute loss gradient first") := by
  refine ⟨fun e inp tgt => rfl, ?_, ?_, ?_⟩
  · intro e i s e1 h hnone
    unfold DE.stepForwardLayer at h
    split at h
    · exact absurd h (by simp)
    · split at h
      · exact absurd h (by simp)
      · split at h
        · exact absurd h (by simp)
        · simp only [Except.ok.injEq, DE.pushSnapshot] at h
          obtain ⟨h1, h2⟩ := Prod.mk.injEq .. ▸ h
          rw [← h2]
          exact hnone
  · intro e s e1 h hnone
    unfold DE.stepComputeLoss at h
    split at h
    · simp only at h
      split at h
      · exact absurd h (by simp)
      · simp only [Except.ok.injEq, DE.pushSnapshot] at h
        obtain ⟨h1, h2⟩ := Prod.mk.injEq .. ▸ h
        rw [← h2]
        show (DE.completeForward e _).lossGradient = none
        rw [DE.completeForward_lossGradient]
        exact hnone
    · exact absurd h (by simp)
  · intro e h
    unfold DE.stepBackwardLayer
    rw [h]

/-- Witness for C6: a freshly loaded single-layer engine rejects
`stepBackwardLayer 0`. -/
theorem C6_stepBackwardLayer_requires_loss_gradient_witness :
    DE.stepBackwardLayer 0
      (DE.setData (Tensor.mk [[1]] 1 1) (Tensor.mk [[0]] 1 1) DE.exEngine1) =
    .error "Must compute loss gradient first" :=
  C6_stepBackwardLayer_requires_loss_gradient.2.2.2 _ rfl

/-- C1 (amended): after `setData` the step history is empty and after one
`stepForwardLayer(0)` it has length 1, as claimed — but the step index is
then `0`, so the very next `undo()` already returns `false` and leaves the
history at length 1; `undo()` returns `true` (decrementing the index and
restoring that snapshot) exactly from index `≥ 1`. -/
theorem C1_undo_after_first_step (E : DE.DebugEngine) (inp tgt : Tensor ℚ)
    (hL : E.network.layers ≠ []) :
    DE.getStepHistory (DE.setData inp tgt E) = [] ∧
    (∃ snap e2, DE.stepForwardLayer 0 (DE.setData inp tgt E) = .ok (snap, e2) ∧
      (DE.getStepHistory e2).length = 1 ∧
      e2.currentStepIndex = 0 ∧
      DE.undo e2 = (false, e2)) ∧
    (∀ e : DE.DebugEngine, e.currentStepIndex ≤ 0 → DE.undo e = (false, e)) ∧
    (∀ e : DE.DebugEngine, 1 ≤ e.currentStepIndex →
      (DE.undo e).1 = true ∧
      (DE.undo e).2.currentStepIndex = e.currentStepIndex - 1) := by
  obtain ⟨l, ls, hcons⟩ : ∃ l ls, E.network.layers = l :: ls := by
    cases hE : E.network.layers with
    | nil => exact absurd hE hL
    | cons l ls => exact ⟨l, ls, rfl⟩
  refine ⟨rfl, ?_, ?_, ?_⟩
  · simp only [DE.stepForwardLayer, DE.setData, DE.Network.forwardLayer, hcons]
    exact ⟨_, _, rfl, rfl, rfl, rfl⟩
  · intro e h
    unfold DE.undo
    rw [if_pos h]
  · intro e h
    unfold DE.undo
    rw [if_neg (by omega)]
    constructor
    · split <;> rfl
    · split <;> rfl

namespace DE

theorem getStepHistory_pushSnapshot (e : DebugEngine) (st : StepType)
    (li : Option ℕ) (h : -1 ≤ e.currentStepIndex) :
    getStepHistory (pushSnapshot e st li).2 =
      getStepHistory e ++ [(pushSnapshot e st li).1] := by
  unfold pushSnapshot getStepHistory
  simp only
  rw [List.take_of_length_le]
  simp only [List.length_append, List.length_take, List.length_cons,
    List.length_nil]
  omega

/-- A placeholder snapshot, used only as the `getD` default when chaining
concrete engine runs (every chained step below is proved to succeed, so the
default is never taken). -/
def dummySnap : StepSnapshot := ⟨.forward, none, ⟨[], [], none⟩, 0⟩

/-- Concrete two-layer run: the freshly loaded engine. -/
def chain2 : DebugEngine :=
  setData (Tensor.mk [[1]] 1 1) (Tensor.mk [[0]] 1 1) exEngine2

/-- `getD` default for chained steps. -/
def dummyPair : StepSnapshot × DebugEngine := (dummySnap, exEngine2)

/-- State after `stepForwardLayer(0)`. -/
def c2a : DebugEngine := ((stepForwardLayer 0 chain2).toOption.getD dummyPair).2

/-- State after `stepForwardLayer(1)`. -/
def c2b : DebugEngine := ((stepForwardLayer 1 c2a).toOption.getD dummyPair).2

/-- State after `stepComputeLoss()`. -/
def c2c : DebugEngine := ((stepComputeLoss c2b).toOption.getD dummyPair).2

/-- State after `stepBackwardLossGradient()`. -/
def c2d : DebugEngine :=
  ((stepBackwardLossGradient c2c).toOption.getD dummyPair).2

/-- State after `stepBackwardLayer(1)` (the last layer — accepted). -/
def c2e : DebugEngine := ((stepBackwardLayer 1 c2d).toOption.getD dummyPair).2

/-- Single-layer run for the undo counterexample: state after
`setData` followed by one `stepForwardLayer(0)`. -/
def c1state : DebugEngine :=
  ((stepForwardLayer 0
    (setData (Tensor.mk [[1]] 1 1) (Tensor.mk [[0]] 1 1) exEngine1)).toOption.getD
      (dummySnap, exEngine1)).2

end DE

/-- Witness for C1 at a concrete single-layer engine. -/
theorem C1_undo_after_first_step_witness :
    DE.getStepHistory
      (DE.setData (Tensor.mk [[1]] 1 1) (Tensor.mk [[0]] 1 1) DE.exEngine1) = [] ∧
    (∃ snap e2, DE.stepForwardLayer 0
        (DE.setData (Tensor.mk [[1]] 1 1) (Tensor.mk [[0]] 1 1) DE.exEngine1) =
          .ok (snap, e2) ∧
      (DE.getStepHistory e2).length = 1 ∧
      e2.currentStepIndex = 0 ∧
      DE.undo e2 = (false, e2)) := by
  have h := C1_undo_after_first_step DE.exEngine1 (Tensor.mk [[1]] 1 1)
    (Tensor.mk [[0]] 1 1) (by simp [DE.exEngine1])
  exact ⟨h.1, h.2.1⟩

/-- C1 counterexample: on a concrete single-layer engine, after `setData` and
exactly one `stepForwardLayer(0)` (which succeeds and leaves a history of
length 1), the claimed "subsequent `undo()` returns true and restores
`getStepHistory()` to empty" is false — `undo()` returns `false` and the
history stays length 1. -/
theorem C1_undo_at_index_zero_counterexample :
    (DE.stepForwardLayer 0
      (DE.setData (Tensor.mk [[1]] 1 1) (Tensor.mk [[0]] 1 1)
        DE.exEngine1)).isOk = true ∧
    (DE.getStepHistory DE.c1state).length = 1 ∧
    (DE.undo DE.c1state).1 = false ∧
    DE.getStepHistory (DE.undo DE.c1state).2 = DE.getStepHistory DE.c1state :=
  ⟨rfl, rfl, rfl, rfl⟩

/-- C2 (amended): with the loss gradient computed, `stepBackwardLayer(i)`
succeeds **only** for the last layer index (`i + 1 = layers.length`),
running that layer's backward on the loss gradient and appending a
`backward` snapshot; every other index — including earlier layers requested
in strict reverse order after the last one — fails with
`'Backward pass must be done in reverse order'`.  The full reverse pass is
only available through `stepBackwardComplete`. -/
theorem C2_stepBackwardLayer_last_layer_only (e : DE.DebugEngine)
    (g : Tensor ℚ) (hg : e.lossGradient = some g) :
    (∀ i, i + 1 ≠ e.network.layers.length →
      DE.stepBackwardLayer i e =
        .error "Backward pass must be done in reverse order") ∧
    (∀ i layer, e.network.layers.get? i = some layer →
      i + 1 = e.network.layers.length →
      ∀ li pre, layer.lastInput = some li →
      layer.preActivationOutput = some pre →
      -1 ≤ e.currentStepIndex →
      ∃ snap e1, DE.stepBackwardLayer i e = .ok (snap, e1) ∧
        snap.stepType = .backward ∧
        snap.layerIndex = some i ∧
        DE.getStepHistory e1 = DE.getStepHistory e ++ [snap]) := by
  constructor
  · intro i hi
    simp only [DE.stepBackwardLayer, hg]
    rw [if_neg hi]
  · intro i layer hget hlen li pre hli hpre hidx
    simp only [DE.stepBackwardLayer, hg]
    rw [if_pos hlen, hget]
    simp only [DE.Layer.backward, hli, hpre]
    refine ⟨_, _, rfl, rfl, rfl, ?_⟩
    exact DE.getStepHistory_pushSnapshot _ _ _ hidx

/-- Witness for C2: in the concrete two-layer run, right after the loss
gradient has been computed, requesting layer 0 (not the last layer) fails
with the reverse-order error. -/
theorem C2_stepBackwardLayer_last_layer_only_witness :
    DE.stepBackwardLayer 0 DE.c2d =
      .error "Backward pass must be done in reverse order" :=
  (C2_stepBackwardLayer_last_layer_only DE.c2d _ rfl).1 0 (by decide)

/-- C2 counterexample: in a concrete two-layer run (forward 0, forward 1,
loss, loss gradient — all succeeding), `stepBackwardLayer(1)` succeeds but
the next call in strict reverse order, `stepBackwardLayer(0)`, throws
`'Backward pass must be done in reverse order'`, so the claimed reverse
sequence `i = L-1, ..., 0` does not succeed at each step. -/
theorem C2_reverse_order_counterexample :
    (DE.stepForwardLayer 0 DE.chain2).isOk = true ∧
    (DE.stepForwardLayer 1 DE.c2a).isOk = true ∧
    (DE.stepComputeLoss DE.c2b).isOk = true ∧
    (DE.stepBackwardLossGradient DE.c2c).isOk = true ∧
    (DE.stepBackwardLayer 1 DE.c2d).isOk = true ∧
    DE.stepBackwardLayer 0 DE.c2e =
      .error "Backward pass must be done in reverse order" :=
  ⟨rfl, rfl, rfl, rfl, rfl, rfl⟩

namespace GA

/-- `Expression` from `src/lib/graph-analysis.ts`. -/
structure Expression where
  id : String
  label : String
  text : String
  color : String
  visible : Bool
  deriving Repr, DecidableEq

/-- `.toLowerCase()`, modelled characterwise. -/
def lowerStr (s : String) : String := ⟨s.data.map Char.toLower⟩

/-- The scanner for `text.match(/y\d+/g) || []`: a left-to-right,
non-overlapping scan for `y` followed by one or more (greedily consumed)
digits.  The second argument is the scanner state: `none` outside a
candidate match, `some ds` after a `y` with the digits read so far in
reverse. -/
def refsAux : List Char → Option (List Char) → List String
  | [], none => []
  | [], some ds => if ds = [] then [] else [⟨'y' :: ds.reverse⟩]
  | c :: cs, none =>
    if c = 'y' then refsAux cs (some []) else refsAux cs none
  | c :: cs, some ds =>
    if c.isDigit then refsAux cs (some (c :: ds))
    else if ds = [] then
      (if c = 'y' then refsAux cs (some []) else refsAux cs none)
    else
      (⟨'y' :: ds.reverse⟩ : String) ::
        (if c = 'y' then refsAux cs (some []) else refsAux cs none)

/-- The referenced labels of an expression text. -/
def refsOf (text : String) : List String := refsAux text.data none

/-- The `labelToExpr` map of `topologicalSort`: built by `Map.set` over the
list (later entries overwrite earlier ones), so `get` returns the **last**
expression whose lowercased label matches. -/
def lookupLabel (g : List Expression) (l : String) : Option Expression :=
  g.reverse.find? fun e => lowerStr e.label = l

/-- The mutable `visited`/`result` pair threaded through `visit`. -/
structure SortState where
  visited : List String
  result : List Expression

/-- The labels of the expression list, as a finset (for the termination
measure of the DFS). -/
def labelFinset (g : List Expression) : Finset String :=
  (g.map fun e => lowerStr e.label).toFinset

/-- Termination measure: the number of map labels not yet on the current
visit path. -/
def unvisitedCount (g : List Expression) (visiting : List String) : ℕ :=
  ((labelFinset g).filter fun l => l ∉ visiting).card

theorem lookup_mem {g : List Expression} {l : String} {e : Expression}
    (h : lookupLabel g l = some e) : e ∈ g ∧ lowerStr e.label = l := by
  have h1 := List.mem_of_find?_eq_some h
  have h2 := List.find?_some h
  exact ⟨List.mem_reverse.mp h1, of_decide_eq_true h2⟩

theorem unvisited_decreases {g : List Expression} {label : String}
    {visiting : List String} (hmem : label ∈ labelFinset g)
    (hnv : label ∉ visiting) :
    unvisitedCount g (label :: visiting) < unvisitedCount g visiting := by
  apply Finset.card_lt_card
  constructor
  · intro x hx
    rw [Finset.mem_filter] at hx ⊢
    exact ⟨hx.1, fun hc => hx.2 (List.mem_cons_of_mem _ hc)⟩
  · intro hsub
    have hlab : label ∈ (labelFinset g).filter fun l => l ∉ visiting :=
      Finset.mem_filter.mpr ⟨hmem, hnv⟩
    have := hsub hlab
    rw [Finset.mem_filter] at this
    exact this.2 (List.mem_cons_self _ _)

theorem lookup_mem_labelFinset {g : List Expression} {l : String}
    {e : Expression} (h : lookupLabel g l = some e) : l ∈ labelFinset g := by
  obtain ⟨hmem, hlab⟩ := lookup_mem h
  unfold labelFinset
  rw [List.mem_toFinset]
  exact hlab ▸ List.mem_map_of_mem _ hmem

mutual

/-- `visit(label, visiting)` from `topologicalSort`
(`src/lib/graph-analysis.ts`): skip if already visited, skip if on the
current path (cycle short-circuit), skip unknown labels; otherwise visit the
referenced labels first with `label` added to the path, then mark `label`
visited and push its expression. -/
def visit (g : List Expression) (label : String) (visiting : List String)
    (s : SortState) : SortState :=
  if label ∈ s.visited then s
  else if label ∈ visiting then s
  else
    match hl : lookupLabel g label with
    | none => s
    | some expr =>
      let s1 := visitRefs g (refsOf (lowerStr expr.text)) (label :: visiting) s
      ⟨label :: s1.visited, s1.result ++ [expr]⟩
termination_by (unvisitedCount g visiting, 0)
decreasing_by
  simp_wf
  left
  exact unvisited_decreases (lookup_mem_labelFinset hl) (by assumption)

/-- The `for (const ref of refs) visit(ref, visiting)` loop. -/
def visitRefs (g : List Expression) (refs : List String)
    (visiting : List String) (s : SortState) : SortState :=
  match refs with
  | [] => s
  | r :: rs => visitRefs g rs visiting (visit g r visiting s)
termination_by (unvisitedCount g visiting, refs.length + 1)
decreasing_by
  · simp_wf
    right
    omega
  · simp_wf
    right
    omega

end

/-- `topologicalSort` from `src/lib/graph-analysis.ts`: visit every
expression's (lowercased) label with a fresh path set, returning the
accumulated result. -/
def topologicalSort (exprs : List Expression) : List Expression :=
  (exprs.foldl (fun s e => visit exprs (lowerStr e.label) [] s) ⟨[], []⟩).result

end GA

namespace GA

theorem visit_visited {g : List Expression} {label : String}
    {visiting : List String} {s : SortState} (h : label ∈ s.visited) :
    visit g label visiting s = s := by
  unfold visit
  rw [if_pos h]

theorem visit_visiting {g : List Expression} {label : String}
    {visiting : List String} {s : SortState} (h1 : label ∉ s.visited)
    (h2 : label ∈ visiting) :
    visit g label visiting s = s := by
  unfold visit
  rw [if_neg h1, if_pos h2]

theorem visit_nolookup {g : List Expression} {label : String}
    {visiting : List String} {s : SortState} (h1 : label ∉ s.visited)
    (h2 : label ∉ visiting) (h3 : lookupLabel g label = none) :
    visit g label visiting s = s := by
  unfold visit
  rw [if_neg h1, if_neg h2]
  split
  · rfl
  · simp_all

theorem visit_main {g : List Expression} {label : String}
    {visiting : List String} {s : SortState} {expr : Expression}
    (h1 : label ∉ s.visited) (h2 : label ∉ visiting)
    (h3 : lookupLabel g label = some expr) :
    visit g label visiting s =
      ⟨label :: (visitRefs g (refsOf (lowerStr expr.text))
          (label :: visiting) s).visited,
        (visitRefs g (refsOf (lowerStr expr.text))
          (label :: visiting) s).result ++ [expr]⟩ := by
  unfold visit
  rw [if_neg h1, if_neg h2]
  split
  · simp_all
  · rename_i e heq
    rw [h3] at heq
    cases heq
    rfl

theorem visitRefs_nil {g : List Expression} {visiting : List String}
    {s : SortState} : visitRefs g [] visiting s = s :=
  visitRefs.eq_1 g visiting s

theorem visitRefs_cons {g : List Expression} {r : String} {rs : List String}
    {visiting : List String} {s : SortState} :
    visitRefs g (r :: rs) visiting s =
      visitRefs g rs visiting (visit g r visiting s) := by
  rw [visitRefs.eq_def]

end GA

namespace GA

/-- The running state invariant of the DFS: the result's lowercased labels
are exactly the visited labels (in order), visited labels are distinct, and
every pushed expression is the map image of its own label. -/
def Inv (g : List Expression) (s : SortState) : Prop :=
  (s.result.map fun e => lowerStr e.label) = s.visited.reverse ∧
  s.visited.Nodup ∧
  ∀ e ∈ s.result, lookupLabel g (lowerStr e.label) = some e

/-- What one `visit` call guarantees: visited only grows (by labels off the
current path), result only grows, the invariant is preserved, and a label
that is in the map and off the path ends up visited. -/
def VisitSpec (g : List Expression) (label : String) (visiting : List String)
    (s : SortState) : Prop :=
  (∃ dv, (visit g label visiting s).visited = dv ++ s.visited ∧
    ∀ x ∈ dv, x ∉ visiting) ∧
  (∃ dr, (visit g label visiting s).result = s.result ++ dr) ∧
  (Inv g s → Inv g (visit g label visiting s)) ∧
  (label ∉ visiting → (lookupLabel g label).isSome = true →
    label ∈ (visit g label visiting s).visited)

/-- The `visitRefs` analogue of `VisitSpec`. -/
def RefsSpec (g : List Expression) (refs : List String)
    (visiting : List String) (s : SortState) : Prop :=
  (∃ dv, (visitRefs g refs visiting s).visited = dv ++ s.visited ∧
    ∀ x ∈ dv, x ∉ visiting) ∧
  (∃ dr, (visitRefs g refs visiting s).result = s.result ++ dr) ∧
  (Inv g s → Inv g (visitRefs g refs visiting s)) ∧
  (∀ r ∈ refs, r ∉ visiting → (lookupLabel g r).isSome = true →
    r ∈ (visitRefs g refs visiting s).visited)

theorem spec_aux (g : List Expression) : ∀ (n : ℕ) (visiting : List String),
    unvisitedCount g visiting < n →
    (∀ label s, VisitSpec g label visiting s) ∧
    (∀ refs s, RefsSpec g refs visiting s) := by
  intro n
  induction n with
  | zero => intro visiting h; omega
  | succ n ih =>
    intro visiting hcount
    have hv : ∀ label s, VisitSpec g label visiting s := by
      intro label s
      by_cases hvis : label ∈ s.visited
      · rw [VisitSpec, visit_visited hvis]
        exact ⟨⟨[], rfl, by simp⟩, ⟨[], by simp⟩, fun h => h, fun _ _ => hvis⟩
      · by_cases hpath : label ∈ visiting
        · rw [VisitSpec, visit_visiting hvis hpath]
          exact ⟨⟨[], rfl, by simp⟩, ⟨[], by simp⟩, fun h => h,
            fun hniv _ => absurd hpath hniv⟩
        · match hl : lookupLabel g label with
          | none =>
            rw [VisitSpec, visit_nolookup hvis hpath hl]
            refine ⟨⟨[], rfl, by simp⟩, ⟨[], by simp⟩, fun h => h,
              fun _ hsome => ?_⟩
            rw [hl] at hsome
            simp at hsome
          | some expr =>
            have hdec : unvisitedCount g (label :: visiting) < n := by
              have h1 := unvisited_decreases (lookup_mem_labelFinset hl) hpath
              omega
            have hrefs := (ih (label :: visiting) hdec).2
              (refsOf (lowerStr expr.text)) s
            rw [RefsSpec] at hrefs
            obtain ⟨⟨dv, hdv, hdvnotin⟩, ⟨dr, hdr⟩, hinv, hcompl⟩ := hrefs
            rw [VisitSpec, visit_main hvis hpath hl]
            have hlabexpr : lowerStr expr.label = label := (lookup_mem hl).2
            refine ⟨⟨label :: dv, by simp [hdv], ?_⟩,
              ⟨dr ++ [expr], by simp [hdr]⟩, ?_, fun _ _ => List.mem_cons_self _ _⟩
            · intro x hx
              rcases List.mem_cons.mp hx with rfl | hx
              · exact hpath
              · exact fun hc => hdvnotin x hx (List.mem_cons_of_mem _ hc)
            · intro hInvS
              obtain ⟨hI1, hI2, hI3⟩ := hinv hInvS
              refine ⟨?_, ?_, ?_⟩
              · simp only [List.map_append, hI1, List.map_cons,
                  List.map_nil, List.reverse_cons, hlabexpr]
              · have hnotin : label ∉ (visitRefs g (refsOf (lowerStr expr.text))
                    (label :: visiting) s).visited := by
                  rw [hdv]
                  intro hc
                  rcases List.mem_append.mp hc with hc | hc
                  · exact hdvnotin label hc (List.mem_cons_self _ _)
                  · exact hvis hc
                exact List.Nodup.cons hnotin hI2
              · intro e he
                rcases List.mem_append.mp he with he | he
                · exact hI3 e he
                · rcases List.mem_singleton.mp he with rfl
                  rw [hlabexpr]
                  exact hl
    refine ⟨hv, ?_⟩
    intro refs
    induction refs with
    | nil =>
      intro s
      rw [RefsSpec, visitRefs_nil]
      exact ⟨⟨[], by simp, by simp⟩, ⟨[], by simp⟩, fun h => h, by simp⟩
    | cons r rs ihr =>
      intro s
      have h1 := hv r s
      rw [VisitSpec] at h1
      obtain ⟨⟨dv1, hdv1, hn1⟩, ⟨dr1, hdr1⟩, hinv1, hcompl1⟩ := h1
      have h2 := ihr (visit g r visiting s)
      rw [RefsSpec] at h2
      obtain ⟨⟨dv2, hdv2, hn2⟩, ⟨dr2, hdr2⟩, hinv2, hcompl2⟩ := h2
      rw [RefsSpec, visitRefs_cons]
      refine ⟨⟨dv2 ++ dv1, by rw [hdv2, hdv1, List.append_assoc], ?_⟩,
        ⟨dr1 ++ dr2, by rw [hdr2, hdr1, List.append_assoc]⟩, ?_, ?_⟩
      · intro x hx
        rcases List.mem_append.mp hx with hx | hx
        · exact hn2 x hx
        · exact hn1 x hx
      · exact fun h => hinv2 (hinv1 h)
      · intro r2 hr2 hniv hsome
        rcases List.mem_cons.mp hr2 with rfl | hr2
        · have := hcompl1 hniv hsome
          rw [hdv2]
          rw [hdv1] at this ⊢
          exact List.mem_append_right _ this
        · exact hcompl2 r2 hr2 hniv hsome

theorem visit_spec (g : List Expression) (label : String)
    (visiting : List String) (s : SortState) :
    VisitSpec g label visiting s :=
  (spec_aux g (unvisitedCount g visiting + 1) visiting (by omega)).1 label s

theorem refs_spec (g : List Expression) (refs : List String)
    (visiting : List String) (s : SortState) :
    RefsSpec g refs visiting s :=
  (spec_aux g (unvisitedCount g visiting + 1) visiting (by omega)).2 refs s

end GA

namespace GA

theorem lookup_isSome_of_mem {g : List Expression} {e : Expression}
    (h : e ∈ g) : (lookupLabel g (lowerStr e.label)).isSome = true := by
  unfold lookupLabel
  rw [List.find?_isSome]
  exact ⟨e, List.mem_reverse.mpr h, by simp⟩

theorem lookup_eq_of_nodup {g : List Expression}
    (hD : (g.map fun e => lowerStr e.label).Nodup) {e : Expression}
    (h : e ∈ g) : lookupLabel g (lowerStr e.label) = some e := by
  obtain ⟨e2, he2⟩ := Option.isSome_iff_exists.mp (lookup_isSome_of_mem h)
  obtain ⟨he2g, he2lab⟩ := lookup_mem he2
  have : e2 = e := List.inj_on_of_nodup_map hD he2g h he2lab
  rw [he2, this]

/-- What the outer `forEach` fold of `topologicalSort` guarantees. -/
theorem fold_spec (g : List Expression) : ∀ (l : List Expression) (s : SortState),
    (∃ dv, (l.foldl (fun s e => visit g (lowerStr e.label) [] s) s).visited =
      dv ++ s.visited) ∧
    (Inv g s → Inv g (l.foldl (fun s e => visit g (lowerStr e.label) [] s) s)) ∧
    (∀ e ∈ l, (lookupLabel g (lowerStr e.label)).isSome = true →
      lowerStr e.label ∈
        (l.foldl (fun s e => visit g (lowerStr e.label) [] s) s).visited) := by
  intro l
  induction l with
  | nil =>
    intro s
    exact ⟨⟨[], by simp⟩, fun h => h, by simp⟩
  | cons e es ihe =>
    intro s
    simp only [List.foldl_cons]
    have h1 := visit_spec g (lowerStr e.label) [] s
    rw [VisitSpec] at h1
    obtain ⟨⟨dv1, hdv1, _⟩, _, hinv1, hcompl1⟩ := h1
    obtain ⟨⟨dv2, hdv2⟩, hinv2, hcompl2⟩ :=
      ihe (visit g (lowerStr e.label) [] s)
    refine ⟨⟨dv2 ++ dv1, by rw [hdv2, hdv1, List.append_assoc]⟩,
      fun h => hinv2 (hinv1 h), ?_⟩
    intro e2 he2 hsome
    rcases List.mem_cons.mp he2 with rfl | he2
    · have hmem := hcompl1 (by simp) hsome
      rw [hdv2]
      exact List.mem_append_right _ hmem
    · exact hcompl2 e2 he2 hsome

/-- The label-reference edge relation of the dependency graph: `l` references
`r` when the expression the map stores at `l` mentions `r`. -/
def edge (g : List Expression) (l r : String) : Prop :=
  ∃ e, lookupLabel g l = some e ∧ r ∈ refsOf (lowerStr e.text)

/-- The ordering invariant: every pushed expression's in-map references
already occur at earlier result positions. -/
def OrdInv (g : List Expression) (s : SortState) : Prop :=
  ∀ (k : ℕ) (e : Expression), s.result[k]? = some e →
    ∀ r ∈ refsOf (lowerStr e.text), ∀ e2, lookupLabel g r = some e2 →
      ∃ j < k, s.result[j]? = some e2

theorem ord_aux (g : List Expression) (rank : String → ℕ)
    (hrank : ∀ l r, edge g l r → rank r < rank l) :
    ∀ (n : ℕ) (visiting : List String), unvisitedCount g visiting < n →
    (∀ label s, (∀ v ∈ visiting, rank label < rank v) →
      Inv g s → OrdInv g s → OrdInv g (visit g label visiting s)) ∧
    (∀ refs s, (∀ r ∈ refs, ∀ v ∈ visiting, rank r < rank v) →
      Inv g s → OrdInv g s → OrdInv g (visitRefs g refs visiting s)) := by
  intro n
  induction n with
  | zero => intro visiting h; omega
  | succ n ih =>
    intro visiting hcount
    have hv : ∀ label s, (∀ v ∈ visiting, rank label < rank v) →
        Inv g s → OrdInv g s → OrdInv g (visit g label visiting s) := by
      intro label s hVH hInv hOrd
      by_cases hvis : label ∈ s.visited
      · rw [visit_visited hvis]; exact hOrd
      · by_cases hpath : label ∈ visiting
        · rw [visit_visiting hvis hpath]; exact hOrd
        · match hl : lookupLabel g label with
          | none => rw [visit_nolookup hvis hpath hl]; exact hOrd
          | some expr =>
            have hdec : unvisitedCount g (label :: visiting) < n := by
              have := unvisited_decreases (lookup_mem_labelFinset hl) hpath
              omega
            have hVH2 : ∀ r ∈ refsOf (lowerStr expr.text),
                ∀ v ∈ label :: visiting, rank r < rank v := by
              intro r hr v hvmem
              have hedge : rank r < rank label := hrank _ _ ⟨expr, hl, hr⟩
              rcases List.mem_cons.mp hvmem with rfl | hvmem
              · exact hedge
              · exact hedge.trans (hVH v hvmem)
            have hOrd1 := (ih (label :: visiting) hdec).2
              (refsOf (lowerStr expr.text)) s hVH2 hInv hOrd
            have hspec := refs_spec g (refsOf (lowerStr expr.text))
              (label :: visiting) s
            rw [RefsSpec] at hspec
            obtain ⟨_, _, hinvP, hcompl⟩ := hspec
            have hInv1 := hinvP hInv
            obtain ⟨hI1, hI2, hI3⟩ := hInv1
            rw [visit_main hvis hpath hl]
            intro k e hk r hr e2 hlook2
            simp only at hk
            set s1 := visitRefs g (refsOf (lowerStr expr.text))
              (label :: visiting) s with hs1
            rw [List.getElem?_append] at hk
            split at hk
            · -- old entry
              obtain ⟨j, hj, hj2⟩ := hOrd1 k e hk r hr e2 hlook2
              refine ⟨j, hj, ?_⟩
              have hjlen : j < s1.result.length := by
                rcases List.getElem?_eq_some.mp hj2 with ⟨hb, _⟩
                exact hb
              simp only [List.getElem?_append, if_pos hjlen]
              exact hj2
            · -- k ≥ length: the pushed entry or out of range
              rename_i hklen
              rcases List.getElem?_eq_some.mp hk with ⟨hb, hval⟩
              simp only [List.length_cons, List.length_nil] at hb
              have hkeq : k = s1.result.length := by omega
              have he : e = expr := by
                subst hkeq
                simp at hk
                exact hk.symm
              rw [he] at hr
              -- r is off the extended path by the ranking
              have hredge : rank r < rank label := hrank _ _ ⟨expr, hl, hr⟩
              have hrnot : r ∉ label :: visiting := by
                intro hc
                rcases List.mem_cons.mp hc with rfl | hc
                · exact absurd hredge (lt_irrefl _)
                · exact absurd (hredge.trans (hVH r hc)) (lt_irrefl _)
              have hrvis : r ∈ s1.visited :=
                hcompl r hr hrnot (by rw [hlook2]; rfl)
              -- r is therefore a label of an earlier result entry
              have hrres : r ∈ s1.result.map fun e => lowerStr e.label := by
                rw [hI1, List.mem_reverse]
                exact hrvis
              obtain ⟨e3, he3mem, he3lab⟩ := List.mem_map.mp hrres
              obtain ⟨j, hj⟩ := List.mem_iff_getElem?.mp he3mem
              have hjlen : j < s1.result.length :=
                (List.getElem?_eq_some.mp hj).1
              have he3eq : e3 = e2 := by
                have h1 := hI3 e3 he3mem
                rw [he3lab, hlook2] at h1
                exact (Option.some.inj h1).symm
              refine ⟨j, by omega, ?_⟩
              simp only [List.getElem?_append, if_pos hjlen]
              rw [hj, he3eq]
    refine ⟨hv, ?_⟩
    intro refs
    induction refs with
    | nil =>
      intro s _ _ hOrd
      rw [visitRefs_nil]
      exact hOrd
    | cons r rs ihr =>
      intro s hVH hInv hOrd
      rw [visitRefs_cons]
      have hspec := visit_spec g r visiting s
      rw [VisitSpec] at hspec
      have hInv1 := hspec.2.2.1 hInv
      exact ihr (visit g r visiting s)
        (fun r2 hr2 => hVH r2 (List.mem_cons_of_mem _ hr2)) hInv1
        (hv r s (hVH r (List.mem_cons_self _ _)) hInv hOrd)

end GA

namespace GA

theorem fold_ord (g : List Expression) (rank : String → ℕ)
    (hrank : ∀ l r, edge g l r → rank r < rank l) :
    ∀ (l : List Expression) (s : SortState), Inv g s → OrdInv g s →
      OrdInv g (l.foldl (fun s e => visit g (lowerStr e.label) [] s) s) := by
  intro l
  induction l with
  | nil => intro s _ h; exact h
  | cons e es ihe =>
    intro s hInv hOrd
    simp only [List.foldl_cons]
    have hspec := visit_spec g (lowerStr e.label) [] s
    rw [VisitSpec] at hspec
    have hInv1 := hspec.2.2.1 hInv
    have hOrd1 := (ord_aux g rank hrank (unvisitedCount g [] + 1) []
      (by omega)).1 (lowerStr e.label) s (by simp) hInv hOrd
    exact ihe _ hInv1 hOrd1

end GA

/-- C7 (amended): `topologicalSort` is total (no failure path exists, cycles
are skipped by the visiting-path guard); for expression lists whose
**lowercased labels are pairwise distinct** the result is a permutation of
the input (every input expression exactly once); and whenever the label
dependency graph admits a rank function (i.e. is acyclic), every in-map
referenced expression occurs earlier in the result than its referent. -/
theorem C7_topologicalSort_perm_and_order (exprs : List GA.Expression)
    (hD : (exprs.map fun e => GA.lowerStr e.label).Nodup) :
    (GA.topologicalSort exprs).Perm exprs ∧
    (∀ rank : String → ℕ, (∀ l r, GA.edge exprs l r → rank r < rank l) →
      ∀ (k : ℕ) (e : GA.Expression), (GA.topologicalSort exprs)[k]? = some e →
        ∀ r ∈ GA.refsOf (GA.lowerStr e.text), ∀ e2,
          GA.lookupLabel exprs r = some e2 →
          ∃ j < k, (GA.topologicalSort exprs)[j]? = some e2) := by
  have hInv0 : GA.Inv exprs ⟨[], []⟩ := ⟨by simp, List.nodup_nil, by simp⟩
  obtain ⟨_, hinvF, hcomplF⟩ := GA.fold_spec exprs exprs ⟨[], []⟩
  obtain ⟨hF1, hF2, hF3⟩ := hinvF hInv0
  have hts : GA.topologicalSort exprs =
      (exprs.foldl (fun s e => GA.visit exprs (GA.lowerStr e.label) [] s)
        ⟨[], []⟩).result := rfl
  constructor
  · have hnod_res : (GA.topologicalSort exprs).Nodup := by
      refine List.Nodup.of_map (fun e => GA.lowerStr e.label) ?_
      rw [hts, hF1]
      exact List.nodup_reverse.mpr hF2
    have hnod_in : exprs.Nodup := List.Nodup.of_map _ hD
    rw [List.perm_ext_iff_of_nodup hnod_res hnod_in]
    intro a
    constructor
    · intro ha
      rw [hts] at ha
      exact (GA.lookup_mem (hF3 a ha)).1
    · intro ha
      have hvisited := hcomplF a ha (GA.lookup_isSome_of_mem ha)
      have hmap : GA.lowerStr a.label ∈
          ((exprs.foldl (fun s e => GA.visit exprs (GA.lowerStr e.label) [] s)
            ⟨[], []⟩).result.map fun e => GA.lowerStr e.label) := by
        rw [hF1, List.mem_reverse]
        exact hvisited
      obtain ⟨e2, he2mem, he2lab⟩ := List.mem_map.mp hmap
      have h1 := hF3 e2 he2mem
      rw [he2lab, GA.lookup_eq_of_nodup hD ha] at h1
      have : a = e2 := Option.some.inj h1
      rw [hts, this]
      exact he2mem
  · intro rank hrank k e hk r hr e2 hlook2
    have hOrd0 : GA.OrdInv exprs ⟨[], []⟩ := by
      intro k e hke
      simp at hke
    have hOrdF := GA.fold_ord exprs rank hrank exprs ⟨[], []⟩ hInv0 hOrd0
    rw [hts] at hk ⊢
    exact hOrdF k e hk r hr e2 hlook2

namespace GA

/-- Concrete expression `y1 = x^2`. -/
def wExpr1 : Expression := ⟨"1", "y1", "x^2", "blue", true⟩

/-- Concrete expression `y2 = y1+1`. -/
def wExpr2 : Expression := ⟨"2", "y2", "y1+1", "red", true⟩

/-- Two distinct expressions sharing the label `y1`. -/
def dExpr1 : Expression := ⟨"a", "y1", "x", "", true⟩

/-- Second expression with the duplicate label `y1`. -/
def dExpr2 : Expression := ⟨"b", "y1", "x", "", true⟩

end GA

/-- Witness for C7 at the concrete dependent pair `y1 = x^2`, `y2 = y1+1`. -/
theorem C7_topologicalSort_perm_and_order_witness :
    (GA.topologicalSort [GA.wExpr1, GA.wExpr2]).Perm [GA.wExpr1, GA.wExpr2] :=
  (C7_topologicalSort_perm_and_order [GA.wExpr1, GA.wExpr2] (by decide)).1

/-- C7 counterexample: for the list of two distinct expressions that share
the label `y1`, `topologicalSort` returns only the later one, so the claimed
"returned list contains every input expression exactly once" fails on this
expression list. -/
theorem C7_duplicate_label_counterexample :
    GA.topologicalSort [GA.dExpr1, GA.dExpr2] = [GA.dExpr2] ∧
    ([GA.dExpr1, GA.dExpr2] : List GA.Expression).length = 2 ∧
    ¬ (GA.topologicalSort [GA.dExpr1, GA.dExpr2]).Perm [GA.dExpr1, GA.dExpr2] := by
  have hp1 : GA.lowerStr GA.dExpr1.label = "y1" := by decide
  have hp2 : GA.lowerStr GA.dExpr2.label = "y1" := by decide
  have hlook : GA.lookupLabel [GA.dExpr1, GA.dExpr2] "y1" = some GA.dExpr2 := by
    decide
  have hrefs0 : GA.refsOf (GA.lowerStr GA.dExpr2.text) = [] := by decide
  have h1 : GA.visit [GA.dExpr1, GA.dExpr2] "y1" [] ⟨[], []⟩ =
      ⟨["y1"], [GA.dExpr2]⟩ := by
    rw [GA.visit_main (by simp) (by simp) hlook, hrefs0, GA.visitRefs_nil]
    rfl
  have h2 : GA.visit [GA.dExpr1, GA.dExpr2] "y1" [] ⟨["y1"], [GA.dExpr2]⟩ =
      ⟨["y1"], [GA.dExpr2]⟩ :=
    GA.visit_visited (by simp)
  have hsort : GA.topologicalSort [GA.dExpr1, GA.dExpr2] = [GA.dExpr2] := by
    show (GA.visit [GA.dExpr1, GA.dExpr2] (GA.lowerStr GA.dExpr2.label) []
      (GA.visit [GA.dExpr1, GA.dExpr2] (GA.lowerStr GA.dExpr1.label) []
        ⟨[], []⟩)).result = [GA.dExpr2]
    rw [hp1, hp2, h1, h2]
  refine ⟨hsort, rfl, ?_⟩
  intro hperm
  have := hperm.length_eq
  rw [hsort] at this
  simp at this
